import Mathlib

set_option maxRecDepth 40000

/-!
# Verification of the CSV reconciliation engine

A shallow embedding of the comparison engine in `src/App.tsx`
(`performComparison` and its inner helpers `normalizeValue` and
`valuesAreEqual`), together with theorems about the data flow:
key construction under normalization, value equality with numeric
tolerance, and map-based set reconciliation.

Modelling conventions:

* Strings are Lean `String`s; the character-level work is done on
  `List Char` (`String.data`).
* Finite JavaScript numbers are modelled exactly: every finite value
  produced by `parseFloat` on the engine's cleaned inputs is a decimal
  rational `m / 10 ^ e`, which we represent by the pair `ScaledDec` of
  an integer mantissa and a power-of-ten exponent, so that every
  operation is exact integer arithmetic.  IEEE-754 binary64
  representation error *within* the finite range is *not* modelled;
  results that hinge on it are out of scope of this embedding.
  `Number.prototype.toString` is modelled as the canonical decimal
  rendering (sign, integer digits, fractional digits with trailing
  zeros removed, `-0` printed as `0`), which is what JS prints for
  decimal fractions of moderate size.
* `Math.round` follows the ECMAScript definition: the closest integer,
  ties toward `+∞`, i.e. `⌊x + 1/2⌋`.
* `parseFloat` follows the ECMAScript definition: it skips leading
  whitespace and parses the *longest prefix* that forms a decimal
  literal (optional sign, digits, optional fraction, optional
  well-formed exponent); its outcome is modelled three-valued
  (`ParseResult`), because the engine branches on it twice with
  different guards.  No valid prefix gives `NaN` (`.nan`).  A
  (case-sensitive) `Infinity` literal gives the signed infinity
  (`.inf`), as does a literal whose exact magnitude reaches
  `2 ^ 1024 - 2 ^ 970`, the smallest value that rounds to `+∞` in
  binary64 — e.g. `parseFloat('1e400')` is `Infinity`.
  `normalizeValue` guards with `!isNaN && isFinite`, taking the numeric
  path only for `.finite`; `valuesAreEqual` guards with `!isNaN` alone,
  so infinities there are compared *numerically*, and such a comparison
  is never within tolerance (`|±∞ - x|` is `∞` or `NaN`).
* `toLowerCase` is modelled on the Basic Latin range (`A`–`Z`), the
  only case folding the claims exercise.
* JS whitespace (`trim`, the `\s` class) is modelled by the common
  whitespace characters; both the engine's `trim` and its `\s`-removal
  use the same class, as in JS.
-/

/-- The character class used by both `String.prototype.trim` and the
`\s` regex class in the engine (same class in JS). -/
def isJsWs (c : Char) : Bool :=
  c = ' ' || c = '\t' || c = '\n' || c = '\r' ||
  c = '\x0b' || c = '\x0c' || c = ' '

/-- The currency symbols stripped by `normalizeValue`:
`value.replace(/[$€£¥₹]/g, '')`. -/
def isCurrency (c : Char) : Bool :=
  c = '$' || c = '€' || c = '£' || c = '¥' || c = '₹'

/-- `String.prototype.toLowerCase`, on the Basic Latin letters. -/
def lowerChar (c : Char) : Char :=
  if h : 65 ≤ c.toNat ∧ c.toNat ≤ 90 then
    Char.ofNatAux (c.toNat + 32) (Or.inl (by omega))
  else c

/-- `String.prototype.trim`: drop leading and trailing whitespace. -/
def jsTrim (cs : List Char) : List Char :=
  ((cs.dropWhile isJsWs).reverse.dropWhile isJsWs).reverse

/-- Does the value end with the literal substring `".0"`?
(`trimmedValue.endsWith('.0')` in the source). -/
def endsDotZero (cs : List Char) : Bool :=
  match cs.reverse with
  | '0' :: '.' :: _ => true
  | _ => false

/-- `trimmedValue.slice(0, -2)` applied when the value ends in `".0"`. -/
def stripDotZero (cs : List Char) : List Char :=
  if endsDotZero cs then cs.dropLast.dropLast else cs

/-- The three `replace` calls of `normalizeValue`: remove currency
symbols, commas (thousands separators) and all whitespace. -/
def cleanChars (cs : List Char) : List Char :=
  cs.filter fun c => !(isCurrency c || c = ',' || isJsWs c)

/-! ## Decimal digits -/

/-- The digit character for `d < 10`. -/
def digitChar (d : ℕ) : Char := Char.ofNat (48 + d)

/-- The numeric value of a digit character. -/
def digitVal (c : Char) : ℕ := c.toNat - 48

/-- The value of a (most-significant-first) digit list. -/
def valDigits (ds : List Char) : ℕ :=
  ds.foldl (fun a c => 10 * a + digitVal c) 0

/-- Digits of `v`, most significant first, with explicit fuel so that
the definition is structural (hence kernel-reducible).  Empty for 0. -/
def digitsRec : ℕ → ℕ → List Char
  | 0, _ => []
  | f + 1, v => if v = 0 then [] else digitsRec f (v / 10) ++ [digitChar (v % 10)]

/-- Decimal digit string of a natural number (`"0"` for 0). -/
def natDigits (v : ℕ) : List Char :=
  if v = 0 then ['0'] else digitsRec v v

/-- Left-pad a digit list with zeros to length `k`. -/
def padZeros (k : ℕ) (ds : List Char) : List Char :=
  List.replicate (k - ds.length) '0' ++ ds

/-- Remove trailing decimal zeros: divide `m` by 10 while the exponent
budget `k` is positive and `m` is divisible by 10. -/
def stripTens : ℕ → ℕ → ℕ × ℕ
  | m, 0 => (m, 0)
  | m, k + 1 => if m % 10 = 0 then stripTens (m / 10) k else (m, k + 1)

/-- `Number.prototype.toString` on the value `n / 10 ^ p`: canonical
decimal rendering, trailing fractional zeros removed, `-0` printed as
`"0"`. -/
def renderDecimal (n : ℤ) (p : ℕ) : List Char :=
  let mk := stripTens n.natAbs p
  let m := mk.1
  let k := mk.2
  let sign : List Char := if n < 0 ∧ m ≠ 0 then ['-'] else []
  if k = 0 then sign ++ natDigits m
  else sign ++ natDigits (m / 10 ^ k) ++ '.' :: padZeros k (natDigits (m % 10 ^ k))

/-! ## `parseFloat`

Exact decimal value of the longest numeric prefix, as a scaled decimal
`mantissa / 10 ^ exp`. -/

/-- A decimal rational `m / 10 ^ e`, the exact value of every number the
engine manipulates. -/
structure ScaledDec where
  m : ℤ
  e : ℕ
  deriving DecidableEq

/-- The rational value of a scaled decimal (used in statements and
proofs only; all computation stays on `ℤ`/`ℕ`). -/
def ScaledDec.val (d : ScaledDec) : ℚ := d.m / 10 ^ d.e

/-- Read an optional sign; returns whether it was `'-'` and the rest. -/
def readSign : List Char → Bool × List Char
  | '-' :: r => (true, r)
  | '+' :: r => (false, r)
  | cs => (false, cs)

/-- Apply a well-formed exponent part (`e`/`E`, optional sign, at least
one digit) to a parsed mantissa; an incomplete exponent is ignored, as
`parseFloat` backtracks to the longest valid prefix. -/
def applyExpPart (d : ScaledDec) (cs : List Char) : ScaledDec :=
  match cs with
  | c :: rest =>
      if c = 'e' ∨ c = 'E' then
        let s := readSign rest
        let ds := s.2.takeWhile Char.isDigit
        if ds.length = 0 then d
        else if s.1 then ⟨d.m, d.e + valDigits ds⟩
        else ⟨d.m * 10 ^ valDigits ds, d.e⟩
      else d
  | [] => d

/-- The outcome of `parseFloat` as the engine's guards see it: `NaN`,
a signed infinity (an `Infinity` literal, or a literal whose magnitude
reaches the binary64 overflow threshold), or an exact finite decimal.
`normalizeValue` branches on `!isNaN && isFinite` (numeric path only
for `finite`); `valuesAreEqual` branches on `!isNaN` alone. -/
inductive ParseResult where
  | nan
  | inf (neg : Bool)
  | finite (d : ScaledDec)
  deriving DecidableEq

/-- The finite value of a parse outcome, if any. -/
def ParseResult.finitePart : ParseResult → Option ScaledDec
  | .finite d => some d
  | _ => none

/-- The smallest magnitude that rounds (to nearest) beyond the largest
finite binary64, `2 ^ 1024 - 2 ^ 970`: `parseFloat` returns `±Infinity`
exactly for decimal literals at or above it. -/
def overflowThreshold : ℕ := 2 ^ 1024 - 2 ^ 970

/-- Does the (post-sign) input start with the literal `Infinity`
(case-sensitive, as in ECMAScript)? -/
def isInfPrefix (cs : List Char) : Bool :=
  match cs with
  | 'I' :: 'n' :: 'f' :: 'i' :: 'n' :: 'i' :: 't' :: 'y' :: _ => true
  | _ => false

/-- Classify a parsed exact decimal: overflow to the given signed
infinity, or a finite value. -/
def finOrInf (neg : Bool) (d : ScaledDec) : ParseResult :=
  if overflowThreshold * 10 ^ d.e ≤ d.m.natAbs then .inf neg else .finite d

/-- The digits/fraction core of `parseFloat`, after whitespace and sign:
the unsigned mantissa of the longest digit-dot-digit prefix and the
remaining characters, or `none` when no such prefix exists. -/
def parseCore (cs2 : List Char) : Option (ScaledDec × List Char) :=
  let ip := cs2.takeWhile Char.isDigit
  let rest := cs2.dropWhile Char.isDigit
  if ip.length = 0 then
    match rest with
    | '.' :: r2 =>
        let fp := r2.takeWhile Char.isDigit
        if fp.length = 0 then none
        else some (⟨(valDigits fp : ℤ), fp.length⟩, r2.dropWhile Char.isDigit)
    | _ => none
  else
    match rest with
    | '.' :: r2 =>
        let fp := r2.takeWhile Char.isDigit
        some (⟨(valDigits ip : ℤ) * 10 ^ fp.length + valDigits fp, fp.length⟩,
              r2.dropWhile Char.isDigit)
    | _ => some (⟨(valDigits ip : ℤ), 0⟩, rest)

/-- ECMAScript `parseFloat`: skip whitespace and an optional sign, then
the longest prefix that is a decimal literal.  `Infinity` literals give
the signed infinity; no valid prefix gives `NaN`; otherwise the exact
value, classified as finite or overflowed-to-infinity. -/
def jsParseFloat (cs : List Char) : ParseResult :=
  let s := readSign (cs.dropWhile isJsWs)
  if isInfPrefix s.2 then .inf s.1
  else
    match parseCore s.2 with
    | none => .nan
    | some (d, r) =>
        let d' := applyExpPart d r
        finOrInf s.1 (if s.1 then ⟨-d'.m, d'.e⟩ else d')

/-- `Math.round (d.val * 10 ^ p)`: nearest integer, ties toward `+∞`
(the ECMAScript rule), computed exactly on integers as the floor of
`(2 * m * 10 ^ p + 10 ^ e) / (2 * 10 ^ e)`. -/
def jsRoundScaled (d : ScaledDec) (p : ℕ) : ℤ :=
  (2 * d.m * 10 ^ p + 10 ^ d.e) / (2 * 10 ^ d.e : ℤ)

/-! ## The engine's settings and `normalizeValue` -/

/-- The `ComparisonSettings` record of the app. -/
structure ComparisonSettings where
  numericPrecision : ℕ
  ignoreCase : Bool
  trimWhitespace : Bool
  deriving DecidableEq

/-- The defaults used by the app (`numericPrecision: 2`,
`ignoreCase: true`, `trimWhitespace: true`). -/
def defaultSettings : ComparisonSettings :=
  { numericPrecision := 2, ignoreCase := true, trimWhitespace := true }

/-- Step 2 of `normalizeValue`: trim iff the setting asks for it. -/
def trimStep (st : ComparisonSettings) (cs : List Char) : List Char :=
  if st.trimWhitespace then jsTrim cs else cs

/-- `normalizeValue` on character lists.  Mirrors the source line by
line: empty/whitespace short-circuit, optional trim, `".0"` strip,
currency/comma/whitespace removal, `parseFloat`, and either the rounded
numeric rendering or the (trimmed, `".0"`-stripped, optionally
lower-cased) original.  The ignored-`precision` fallback branch of the
source is dead at all call sites (they always pass
`settings.numericPrecision`, which is also the fallback), so one branch
models both. -/
def normChars (st : ComparisonSettings) (cs : List Char) : List Char :=
  if jsTrim cs = [] then []
  else
    let t := trimStep st cs
    let t2 := stripDotZero t
    match jsParseFloat (cleanChars t2) with
    | .finite d => renderDecimal (jsRoundScaled d st.numericPrecision) st.numericPrecision
    | _ => if st.ignoreCase then t2.map lowerChar else t2

/-- `normalizeValue` on strings. -/
def normalizeValue (st : ComparisonSettings) (s : String) : String :=
  ⟨normChars st s.data⟩

/-- Exact test for `|d1.val - d2.val| < 1 / 10 ^ p` on scaled decimals,
by cross multiplication. -/
def closerThanTol (d1 d2 : ScaledDec) (p : ℕ) : Bool :=
  (d1.m * 10 ^ d2.e - d2.m * 10 ^ d1.e).natAbs * 10 ^ p < 10 ^ (d1.e + d2.e)

/-- `valuesAreEqual`: normalize both sides; when neither normal form is
`NaN` (the source guards with `!isNaN` only), compare numerically with
tolerance `10 ^ -precision` — a comparison involving an infinity is
never within tolerance (`|±Inf - x|` is `Inf` or `NaN`, and neither is
`< tol`) — otherwise compare the normal forms as strings. -/
def valuesAreEqual (st : ComparisonSettings) (a b : String) : Bool :=
  let n1 := normChars st a.data
  let n2 := normChars st b.data
  match jsParseFloat n1, jsParseFloat n2 with
  | .nan, _ => decide (n1 = n2)
  | _, .nan => decide (n1 = n2)
  | .finite d1, .finite d2 => closerThanTol d1 d2 st.numericPrecision
  | _, _ => false

example : normalizeValue defaultSettings "1.000" = "1" := by decide
example : normalizeValue defaultSettings "1.005" = "1.01" := by decide
example : normalizeValue defaultSettings "1.2.3" = "1.2" := by decide
example : normalizeValue defaultSettings "abc.0" = "abc" := by decide
example : normalizeValue defaultSettings "-0.005" = "0" := by decide
example : normalizeValue defaultSettings "0.005" = "0.01" := by decide
example : normalizeValue defaultSettings "$1,234.00" = "1234" := by decide
example : normalizeValue defaultSettings " AbC " = "abc" := by decide
example : normalizeValue defaultSettings "1e" = "1" := by decide
example : normalizeValue defaultSettings "1.2e3" = "1200" := by decide
example : normalizeValue defaultSettings "1.2e-3" = "0" := by decide
example : normalizeValue defaultSettings "abc.0.0" = "abc.0" := by decide
example : valuesAreEqual defaultSettings "1.000" "1.004" = true := by decide
example : valuesAreEqual defaultSettings "1.000" "1.005" = false := by decide
example : valuesAreEqual defaultSettings "" "" = true := by decide
example : normalizeValue defaultSettings "1e400" = "1e400" := by decide
example : normalizeValue defaultSettings "Infinity" = "infinity" := by decide
example : valuesAreEqual defaultSettings "1e400" "1e400" = false := by decide
example : valuesAreEqual ⟨2, false, true⟩ "Infinity" "Infinity" = false := by decide
example : valuesAreEqual defaultSettings "Infinity" "Infinity" = true := by decide

/-! ## Tables, records and the reconciler -/

/-- Parsed CSV table (`CSVData` in the source). -/
structure CSVData where
  headers : List String
  rows : List (List String)
  deriving DecidableEq

/-- One entry of the user's column mapping. -/
structure ColumnMapping where
  sourceColumn : String
  compareColumn : String
  deriving DecidableEq

/-- A JS object keyed by strings: insertion-ordered association list
with unique keys.  Assignment to an existing key updates in place
(keeping the original position); a new key is appended.  This is the
behavior of both JS objects and `Map` used by the engine. -/
def mapSet (k : String) (v : α) : List (String × α) → List (String × α)
  | [] => [(k, v)]
  | (k', v') :: r => if k' = k then (k', v) :: r else (k', v') :: mapSet k v r

/-- Lookup in an association list (JS property access / `Map.get`). -/
def lookupA (k : String) : List (String × α) → Option α
  | [] => none
  | (k', v) :: r => if k' = k then some v else lookupA k r

/-- The keys of an association list, in order. -/
def keysOf (m : List (String × α)) : List String := m.map (·.1)

/-- A materialized row: column name → cell, built positionally from the
headers (`rowData[header] = row[index] || ''`). -/
def Record := List (String × String)
deriving instance DecidableEq for Record

/-- Build the record of one row: missing trailing cells default to
`""`; duplicate headers overwrite (keeping first position). -/
def toRecord (headers : List String) (row : List String) : Record :=
  headers.enum.foldl (fun m p => mapSet p.2 (row.getD p.1 "") m) []

/-- The join key of a record: the mapped columns' values, normalized,
joined with `"|"`.  `pick` selects the side
(`(·.sourceColumn)` or `(·.compareColumn)`). -/
def buildKey (st : ComparisonSettings) (mapping : List ColumnMapping)
    (pick : ColumnMapping → String) (rec : Record) : String :=
  String.intercalate "|"
    (mapping.map fun mp => normalizeValue st ((lookupA (pick mp) rec).getD ""))

/-- The key of a raw row. -/
def rowKey (st : ComparisonSettings) (mapping : List ColumnMapping)
    (pick : ColumnMapping → String) (headers : List String) (row : List String) : String :=
  buildKey st mapping pick (toRecord headers row)

/-- The keyed index of a table (`sourceMap` / `compareMap`): one
insertion-ordered entry per distinct key, last row with a given key
winning. -/
def buildIndex (st : ComparisonSettings) (mapping : List ColumnMapping)
    (pick : ColumnMapping → String) (t : CSVData) : List (String × Record) :=
  t.rows.foldl
    (fun m row => mapSet (rowKey st mapping pick t.headers row) (toRecord t.headers row) m)
    []

/-- The tag of an output row.  The source's `'match'` is spelled
`matched` (`match` is a Lean keyword). -/
inductive RowType where
  | matched
  | different
  | missingInCompare
  | missingInSource
  deriving DecidableEq

/-- One entry of `unifiedData`. -/
structure UnifiedCell where
  source : String
  compare : String
  isDifferent : Bool
  deriving DecidableEq

/-- An output row (`ComparisonRow` in the source); absent optional
fields model JS `undefined`. -/
structure ComparisonRow where
  type : RowType
  sourceData : Option Record := none
  compareData : Option Record := none
  differences : Option (List String) := none
  unifiedData : Option (List (String × UnifiedCell)) := none
  deriving DecidableEq

/-- The per-column comparison data gathered for a key present on both
sides: column name, raw source value, raw compare value, equality
verdict. -/
structure CellCmp where
  col : String
  s : String
  c : String
  eq : Bool
  deriving DecidableEq

/-- The loop body over `mappings` for a key present in both maps. -/
def cellsFor (st : ComparisonSettings) (mapping : List ColumnMapping)
    (srow crow : Record) : List CellCmp :=
  mapping.map fun mp =>
    let s := (lookupA mp.sourceColumn srow).getD ""
    let c := (lookupA mp.compareColumn crow).getD ""
    ⟨mp.sourceColumn, s, c, valuesAreEqual st s c⟩

/-- Classify a key present in both maps: build `differences` (pushing a
column iff the values differ and at least one raw value is non-empty —
JS string truthiness) and `unifiedData`, and emit `match` or
`different`. -/
def classifyPair (st : ComparisonSettings) (mapping : List ColumnMapping)
    (srow crow : Record) : ComparisonRow :=
  let cells := cellsFor st mapping srow crow
  let diffs := (cells.filter fun x => !x.eq && !(x.s = "" ∧ x.c = "")).map (·.col)
  { type := if diffs = [] then .matched else .different
    sourceData := some srow
    compareData := some crow
    differences := if diffs = [] then none else some diffs
    unifiedData := some (cells.foldl (fun u x => mapSet x.col ⟨x.s, x.c, !x.eq⟩ u) []) }

/-- The row emitted for one source-index entry: missing-in-compare when
the key is absent from the compare index, otherwise the match/different
classification. -/
def pairRow (st : ComparisonSettings) (mapping : List ColumnMapping)
    (cIdx : List (String × Record)) (kv : String × Record) : ComparisonRow :=
  match lookupA kv.1 cIdx with
  | none => { type := .missingInCompare, sourceData := some kv.2 }
  | some crow => classifyPair st mapping kv.2 crow

/-- The row emitted for a compare-index entry whose key was never
processed (i.e. is absent from the source index). -/
def misRow (kv : String × Record) : ComparisonRow :=
  { type := .missingInSource, compareData := some kv.2 }

/-- The reconciliation engine (`performComparison` minus the React
state handling): index both tables, walk the source index emitting
match/different/missing-in-compare, then walk the compare index
emitting missing-in-source for unprocessed keys.  `processedKeys` is
exactly the set of source-index keys, since every source iteration adds
its key. -/
def reconcile (st : ComparisonSettings) (mapping : List ColumnMapping)
    (src cmp : CSVData) : List ComparisonRow :=
  let sIdx := buildIndex st mapping (·.sourceColumn) src
  let cIdx := buildIndex st mapping (·.compareColumn) cmp
  sIdx.map (pairRow st mapping cIdx) ++
    (cIdx.filter fun kv => (lookupA kv.1 sIdx).isNone).map misRow

example :
    reconcile defaultSettings [⟨"id", "id"⟩, ⟨"amt", "amt"⟩]
      ⟨["id", "amt"], [["1", "10.00"]]⟩ ⟨["id", "amt"], [["1", "10.004"]]⟩
      = [{ type := .matched,
           sourceData := some [("id", "1"), ("amt", "10.00")],
           compareData := some [("id", "1"), ("amt", "10.004")],
           unifiedData := some [("id", ⟨"1", "1", false⟩),
                                ("amt", ⟨"10.00", "10.004", false⟩)] }] := by
  decide

/-- A value differing beyond tolerance in a *mapped* column changes the
join key itself, so the rows do not join: they are reported as a
missing-in-compare / missing-in-source pair, not as `different`. -/
example :
    (reconcile defaultSettings [⟨"id", "id"⟩, ⟨"amt", "amt"⟩]
      ⟨["id", "amt"], [["1", "10.00"]]⟩ ⟨["id", "amt"], [["1", "10.01"]]⟩).map (·.type)
      = [.missingInCompare, .missingInSource] := by
  decide

/-- A `different` row is reachable through `"|"`-aliasing of the joined
key: `["a|b", "c"]` and `["a", "b|c"]` build the same key `"a|b|c"`
while the per-column values differ. -/
example :
    (reconcile defaultSettings [⟨"c1", "c1"⟩, ⟨"c2", "c2"⟩]
      ⟨["c1", "c2"], [["a|b", "c"]]⟩ ⟨["c1", "c2"], [["a", "b|c"]]⟩).map
        (fun r => (r.type, r.differences))
      = [(.different, some ["c1", "c2"])] := by
  decide

example :
    (reconcile defaultSettings [⟨"id", "id"⟩]
      ⟨["id"], [["1"]]⟩ ⟨["id"], [["2"]]⟩).map (·.type)
      = [.missingInCompare, .missingInSource] := by
  decide

/-! ## Association-list lemmas -/

theorem lookupA_mapSet_self {α : Type} (k : String) (v : α) (m : List (String × α)) :
    lookupA k (mapSet k v m) = some v := by
  induction m with
  | nil => simp [mapSet, lookupA]
  | cons hd tl ih =>
      by_cases h : hd.1 = k
      · simp [mapSet, lookupA, h]
      · simp [mapSet, lookupA, h, ih]

theorem lookupA_mapSet_ne {α : Type} {k k' : String} (h : k' ≠ k) (v : α)
    (m : List (String × α)) : lookupA k (mapSet k' v m) = lookupA k m := by
  induction m with
  | nil => simp [mapSet, lookupA, h]
  | cons hd tl ih =>
      by_cases h2 : hd.1 = k'
      · simp [mapSet, lookupA, h2, h]
      · simp [mapSet, lookupA, h2, ih]

theorem keysOf_cons {α : Type} (hd : String × α) (tl : List (String × α)) :
    keysOf (hd :: tl) = hd.1 :: keysOf tl := rfl

theorem keysOf_mapSet_mem {α : Type} {k : String} {m : List (String × α)}
    (h : k ∈ keysOf m) (v : α) : keysOf (mapSet k v m) = keysOf m := by
  induction m with
  | nil => simp [keysOf] at h
  | cons hd tl ih =>
      by_cases h2 : hd.1 = k
      · simp [mapSet, keysOf_cons, h2]
      · rw [keysOf_cons] at h
        rcases List.mem_cons.mp h with h3 | h3
        · exact absurd h3.symm h2
        · simp [mapSet, keysOf_cons, h2, ih h3]

theorem keysOf_mapSet_not_mem {α : Type} {k : String} {m : List (String × α)}
    (h : k ∉ keysOf m) (v : α) : keysOf (mapSet k v m) = keysOf m ++ [k] := by
  induction m with
  | nil => simp [mapSet, keysOf]
  | cons hd tl ih =>
      rw [keysOf_cons] at h
      have h1 : hd.1 ≠ k := fun h2 => h (h2 ▸ List.mem_cons_self _ _)
      have h2 : k ∉ keysOf tl := fun h2 => h (List.mem_cons_of_mem _ h2)
      simp [mapSet, keysOf_cons, h1, ih h2]

theorem mem_keysOf_mapSet {α : Type} (k k' : String) (v : α) (m : List (String × α)) :
    k ∈ keysOf (mapSet k' v m) ↔ k ∈ keysOf m ∨ k = k' := by
  by_cases h : k' ∈ keysOf m
  · rw [keysOf_mapSet_mem h]
    constructor
    · exact .inl
    · rintro (h2 | rfl) <;> assumption
  · rw [keysOf_mapSet_not_mem h]
    simp

theorem nodup_keysOf_mapSet {α : Type} {m : List (String × α)}
    (h : (keysOf m).Nodup) (k : String) (v : α) : (keysOf (mapSet k v m)).Nodup := by
  by_cases h2 : k ∈ keysOf m
  · rwa [keysOf_mapSet_mem h2]
  · rw [keysOf_mapSet_not_mem h2]
    rw [List.nodup_append]
    refine ⟨h, List.nodup_singleton k, ?_⟩
    intro a ha hb
    rw [List.mem_singleton] at hb
    exact h2 (hb ▸ ha)

theorem lookupA_isSome_iff {α : Type} (k : String) (m : List (String × α)) :
    (lookupA k m).isSome = true ↔ k ∈ keysOf m := by
  induction m with
  | nil => simp [lookupA, keysOf]
  | cons hd tl ih =>
      by_cases h : hd.1 = k
      · simp [lookupA, keysOf, h]
      · simp [lookupA, keysOf, h, ih, Ne.symm h]

theorem lookupA_eq_none_iff {α : Type} (k : String) (m : List (String × α)) :
    lookupA k m = none ↔ k ∉ keysOf m := by
  rw [← lookupA_isSome_iff]
  cases lookupA k m <;> simp

/-! ## Index lemmas -/

/-- Insert a key at the end unless already present (the growth of a JS
map's key sequence). -/
def insKey (acc : List String) (k : String) : List String :=
  if k ∈ acc then acc else acc ++ [k]

/-- The sequence of distinct keys of a list, in order of first
occurrence (the insertion order of a JS `Map` built from it). -/
def firstOcc (l : List String) : List String := l.foldl insKey []



theorem mem_insKey (acc : List String) (k a : String) :
    a ∈ insKey acc k ↔ a ∈ acc ∨ a = k := by
  unfold insKey
  by_cases h : k ∈ acc
  · simp only [if_pos h]
    constructor
    · exact .inl
    · rintro (h2 | rfl) <;> assumption
  · simp [if_neg h]

theorem nodup_foldl_insKey (l : List String) :
    ∀ acc : List String, acc.Nodup → (l.foldl insKey acc).Nodup := by
  induction l with
  | nil => exact fun acc h => h
  | cons hd tl ih =>
      intro acc h
      refine ih _ ?_
      unfold insKey
      by_cases h2 : hd ∈ acc
      · simpa [if_pos h2]
      · rw [if_neg h2, List.nodup_append]
        refine ⟨h, List.nodup_singleton hd, ?_⟩
        intro a ha hb
        rw [List.mem_singleton] at hb
        exact h2 (hb ▸ ha)

theorem nodup_firstOcc (l : List String) : (firstOcc l).Nodup :=
  nodup_foldl_insKey l [] List.nodup_nil

theorem mem_foldl_insKey (l : List String) :
    ∀ (acc : List String) (a : String), a ∈ l.foldl insKey acc ↔ a ∈ acc ∨ a ∈ l := by
  induction l with
  | nil => simp [List.foldl]
  | cons hd tl ih =>
      intro acc a
      rw [List.foldl_cons, ih, mem_insKey, List.mem_cons]
      tauto

theorem mem_firstOcc (l : List String) (a : String) : a ∈ firstOcc l ↔ a ∈ l := by
  rw [firstOcc, mem_foldl_insKey]
  simp

/-- The generic index builder: `buildIndex` is this applied to
`rowKey`/`toRecord`. -/
theorem buildIndex_eq_foldl (st : ComparisonSettings) (mapping : List ColumnMapping)
    (pick : ColumnMapping → String) (t : CSVData) :
    buildIndex st mapping pick t =
      t.rows.foldl
        (fun m row => mapSet (rowKey st mapping pick t.headers row) (toRecord t.headers row) m)
        [] := rfl

theorem keysOf_foldl_mapSet (key : List String → String)
    (rows : List (List String)) :
    ∀ m₀ : List (String × Record),
      keysOf (rows.foldl (fun m row => mapSet (key row) (toRecord hs row) m) m₀) =
        (rows.map key).foldl insKey (keysOf m₀) := by
  induction rows with
  | nil => intro m₀; rfl
  | cons hd tl ih =>
      intro m₀
      rw [List.foldl_cons, List.map_cons, List.foldl_cons, ih]
      congr 1
      unfold insKey
      by_cases h : key hd ∈ keysOf m₀
      · rw [keysOf_mapSet_mem h, if_pos h]
      · rw [keysOf_mapSet_not_mem h, if_neg h]

/-- The index keys are the row keys' first occurrences, in source
order. -/
theorem keysOf_buildIndex (st : ComparisonSettings) (mapping : List ColumnMapping)
    (pick : ColumnMapping → String) (t : CSVData) :
    keysOf (buildIndex st mapping pick t) =
      firstOcc (t.rows.map (rowKey st mapping pick t.headers)) := by
  rw [buildIndex_eq_foldl, keysOf_foldl_mapSet]
  rfl

theorem nodup_keysOf_buildIndex (st : ComparisonSettings) (mapping : List ColumnMapping)
    (pick : ColumnMapping → String) (t : CSVData) :
    (keysOf (buildIndex st mapping pick t)).Nodup := by
  rw [keysOf_buildIndex]
  exact nodup_firstOcc _

/-- Last-write-wins, index form: looking up `k` returns the record of
the *last* row whose key is `k` (and `none` when no row has key `k`). -/
theorem lookupA_foldl_mapSet (key : List String → String) (hs : List String)
    (rows : List (List String)) (k : String) :
    ∀ m₀ : List (String × Record),
      lookupA k (rows.foldl (fun m row => mapSet (key row) (toRecord hs row) m) m₀) =
        match (rows.filter fun row => key row = k).getLast? with
        | some row => some (toRecord hs row)
        | none => lookupA k m₀ := by
  induction rows using List.reverseRecOn with
  | nil => intro m₀; rfl
  | append_singleton tl r ih =>
      intro m₀
      rw [List.foldl_append, List.foldl_cons, List.foldl_nil, List.filter_append]
      by_cases h : key r = k
      · have hf : (List.filter (fun row => decide (key row = k)) [r]) = [r] := by
          simp [h]
        rw [hf, List.getLast?_concat]
        subst h
        rw [lookupA_mapSet_self]
      · have hf : (List.filter (fun row => decide (key row = k)) [r]) = [] := by
          simp [h]
        rw [hf, List.append_nil, lookupA_mapSet_ne h, ih]

theorem lookupA_buildIndex (st : ComparisonSettings) (mapping : List ColumnMapping)
    (pick : ColumnMapping → String) (t : CSVData) (k : String) :
    lookupA k (buildIndex st mapping pick t) =
      match (t.rows.filter fun row => rowKey st mapping pick t.headers row = k).getLast? with
      | some row => some (toRecord t.headers row)
      | none => none := by
  rw [buildIndex_eq_foldl, lookupA_foldl_mapSet]
  rcases (t.rows.filter fun row => rowKey st mapping pick t.headers row = k).getLast? with _ | row <;> rfl

theorem foldl_mapSet_same_key (k₀ : String) (rec : List String → Record)
    (rows : List (List String)) :
    ∀ m₀ : List (String × Record), (m₀ = [] ∨ ∃ v, m₀ = [(k₀, v)]) →
      rows.foldl (fun m row => mapSet k₀ (rec row) m) m₀ = [] ∨
        ∃ v, rows.foldl (fun m row => mapSet k₀ (rec row) m) m₀ = [(k₀, v)] := by
  induction rows with
  | nil => intro m₀ h; exact h
  | cons hd tl ih =>
      intro m₀ h
      rw [List.foldl_cons]
      refine ih _ (.inr ?_)
      rcases h with rfl | ⟨v, rfl⟩
      · exact ⟨rec hd, rfl⟩
      · exact ⟨rec hd, by simp [mapSet]⟩

/-- **C7.** When several source rows share a join key after
normalization, only the last one (in input order) survives in the
source index — last-write-wins — and exactly that row's payload appears
in the output; earlier rows are silently dropped, with no error row.
Stated as: every index lookup returns the record of the last row with
that key, together with the spec's end-to-end scenario (keys `"1.0"`
and `"1.00"` both normalize to `"1"` at precision 2; the later payload
is the one emitted). -/
theorem c7_last_write_wins :
    (∀ (st : ComparisonSettings) (mapping : List ColumnMapping) (src : CSVData) (k : String),
      lookupA k (buildIndex st mapping (·.sourceColumn) src) =
        match (src.rows.filter fun row =>
            rowKey st mapping (·.sourceColumn) src.headers row = k).getLast? with
        | some row => some (toRecord src.headers row)
        | none => none) ∧
    (reconcile defaultSettings [⟨"id", "id"⟩]
      ⟨["id", "val"], [["1.0", "first"], ["1.00", "second"]]⟩
      ⟨["id", "val"], [["1", "second"]]⟩).map (·.sourceData)
      = [some [("id", "1.00"), ("val", "second")]] := by
  constructor
  · exact fun st mapping src k => lookupA_buildIndex st mapping _ src k
  · decide

/-- **C8.** With an empty column mapping every record's join key is
`""` (the join of zero parts), so each table's index holds at most one
entry — all rows collapse into a single bucket.  The engine performs no
validation: `reconcile` is total and simply returns this degenerate
result (no error value exists in its type). -/
theorem c8_empty_mapping :
    (∀ (st : ComparisonSettings) (pick : ColumnMapping → String) (rec : Record),
      buildKey st [] pick rec = "") ∧
    (∀ (st : ComparisonSettings) (pick : ColumnMapping → String) (t : CSVData),
      (buildIndex st [] pick t).length ≤ 1) := by
  constructor
  · intro st pick rec; rfl
  · intro st pick t
    have h := foldl_mapSet_same_key "" (toRecord t.headers) t.rows [] (.inl rfl)
    have he : buildIndex st [] pick t =
        t.rows.foldl (fun m row => mapSet "" (toRecord t.headers row) m) [] := by
      rw [buildIndex_eq_foldl]
      congr 1
    rcases he ▸ h with h2 | ⟨v, h2⟩ <;> rw [buildIndex_eq_foldl] at h2 ⊢ <;> simp [h2]

/-! ## Counting output rows (claim C1) -/

/-- Number of output rows with the given tag. -/
def countType (r : List ComparisonRow) (t : RowType) : ℕ :=
  r.countP fun x => decide (x.type = t)

theorem countType_append (r1 r2 : List ComparisonRow) (t : RowType) :
    countType (r1 ++ r2) t = countType r1 t + countType r2 t :=
  List.countP_append _ _ _

theorem countType_eq_zero {l : List ComparisonRow} {t : RowType}
    (h : ∀ x ∈ l, x.type ≠ t) : countType l t = 0 := by
  unfold countType
  rw [List.countP_eq_zero]
  intro x hx
  simpa using h x hx

theorem countType_eq_length {l : List ComparisonRow} {t : RowType}
    (h : ∀ x ∈ l, x.type = t) : countType l t = l.length := by
  unfold countType
  rw [List.countP_eq_length]
  intro x hx
  simpa using h x hx

theorem classifyPair_type (st : ComparisonSettings) (mapping : List ColumnMapping)
    (srow crow : Record) :
    (classifyPair st mapping srow crow).type = .matched ∨
      (classifyPair st mapping srow crow).type = .different := by
  unfold classifyPair
  dsimp only
  split <;> simp

theorem comparisonRow_type_mk (t : RowType) (sd cd : Option Record)
    (df : Option (List String)) (ud : Option (List (String × UnifiedCell))) :
    (ComparisonRow.mk t sd cd df ud).type = t := rfl

theorem pairRow_type_ne_mis (st : ComparisonSettings) (mapping : List ColumnMapping)
    (cIdx : List (String × Record)) (kv : String × Record) :
    (pairRow st mapping cIdx kv).type ≠ .missingInSource := by
  rcases h : lookupA kv.1 cIdx with _ | crow
  · simp [pairRow, h]
  · have hp : pairRow st mapping cIdx kv = classifyPair st mapping kv.2 crow := by
      unfold pairRow
      rw [h]
    rw [hp]
    rcases classifyPair_type st mapping kv.2 crow with h2 | h2 <;> simp [h2]

/-- Each source-index entry contributes exactly one match, different or
missing-in-compare row. -/
theorem count_three_pairRow (st : ComparisonSettings) (mapping : List ColumnMapping)
    (cIdx : List (String × Record)) (l : List (String × Record)) :
    countType (l.map (pairRow st mapping cIdx)) .matched +
      countType (l.map (pairRow st mapping cIdx)) .different +
      countType (l.map (pairRow st mapping cIdx)) .missingInCompare = l.length := by
  induction l with
  | nil => rfl
  | cons hd tl ih =>
      unfold countType at ih ⊢
      rw [List.map_cons, List.countP_cons, List.countP_cons, List.countP_cons]
      have h := pairRow_type_ne_mis st mapping cIdx hd
      rcases h2 : (pairRow st mapping cIdx hd).type <;>
        simp [h2, -List.countP_map] at h ⊢ <;> omega

/-- The match and different rows of the source walk count exactly the
source keys found in the compare index. -/
theorem count_md_pairRow (st : ComparisonSettings) (mapping : List ColumnMapping)
    (cIdx : List (String × Record)) (l : List (String × Record)) :
    countType (l.map (pairRow st mapping cIdx)) .matched +
      countType (l.map (pairRow st mapping cIdx)) .different =
      (l.filter fun kv => (lookupA kv.1 cIdx).isSome).length := by
  induction l with
  | nil => rfl
  | cons hd tl ih =>
      unfold countType at ih ⊢
      rw [List.map_cons, List.countP_cons, List.countP_cons, List.filter_cons]
      rcases h : lookupA hd.1 cIdx with _ | crow
      · have hp : pairRow st mapping cIdx hd =
            { type := .missingInCompare, sourceData := some hd.2 } := by
          unfold pairRow
          rw [h]
        rw [hp]
        simp only [comparisonRow_type_mk, Option.isSome_none]
        simp [-List.countP_map]
        omega
      · have hp : pairRow st mapping cIdx hd = classifyPair st mapping hd.2 crow := by
          unfold pairRow
          rw [h]
        have hty := classifyPair_type st mapping hd.2 crow
        rw [hp]
        rcases hty with h3 | h3 <;> simp [h3, -List.countP_map] <;> omega

/-- Double counting: among two duplicate-free key lists, the number of
keys of the first that occur in the second equals the number of keys of
the second that occur in the first. -/
theorem length_filter_mem_comm {k₁ k₂ : List String} (h₁ : k₁.Nodup) (h₂ : k₂.Nodup) :
    (k₁.filter fun a => decide (a ∈ k₂)).length =
      (k₂.filter fun a => decide (a ∈ k₁)).length := by
  have e1 : ∀ (l₁ l₂ : List String), l₁.Nodup →
      (l₁.filter fun a => decide (a ∈ l₂)).length = (l₁.toFinset ∩ l₂.toFinset).card := by
    intro l₁ l₂ hn
    rw [← List.toFinset_card_of_nodup (hn.filter _), List.toFinset_filter]
    congr 1
    rw [← Finset.filter_mem_eq_inter]
    apply Finset.filter_congr
    intro x hx
    simp
  rw [e1 k₁ k₂ h₁, e1 k₂ k₁ h₂, Finset.inter_comm]

theorem length_filter_isSome_add_isNone {α : Type} (l : List (String × α))
    (f : String × α → Option Record) :
    (l.filter fun kv => (f kv).isSome).length +
      (l.filter fun kv => (f kv).isNone).length = l.length := by
  induction l with
  | nil => rfl
  | cons hd tl ih =>
      rw [List.filter_cons, List.filter_cons]
      rcases h : f hd with _ | v <;> simp [h, ← ih] <;> omega

theorem length_filter_fst {α : Type} (m : List (String × α)) (p : String → Bool) :
    (m.filter fun kv => p kv.1).length = ((keysOf m).filter p).length := by
  unfold keysOf
  rw [List.filter_map]
  rw [List.length_map]
  rfl

/-- **C1.** Reconciliation totals: match + different + missing-in-compare
rows are exactly as many as the distinct source-side join keys (the
source row count after key deduplication), and match + different +
missing-in-source rows are exactly as many as the distinct compare-side
join keys. -/
theorem c1_reconcile_totals (st : ComparisonSettings) (mapping : List ColumnMapping)
    (src cmp : CSVData) :
    countType (reconcile st mapping src cmp) .matched +
        countType (reconcile st mapping src cmp) .different +
        countType (reconcile st mapping src cmp) .missingInCompare =
      (firstOcc (src.rows.map (rowKey st mapping (·.sourceColumn) src.headers))).length ∧
    countType (reconcile st mapping src cmp) .matched +
        countType (reconcile st mapping src cmp) .different +
        countType (reconcile st mapping src cmp) .missingInSource =
      (firstOcc (cmp.rows.map (rowKey st mapping (·.compareColumn) cmp.headers))).length := by
  have hr : reconcile st mapping src cmp =
      (buildIndex st mapping (·.sourceColumn) src).map
        (pairRow st mapping (buildIndex st mapping (·.compareColumn) cmp)) ++
      ((buildIndex st mapping (·.compareColumn) cmp).filter fun kv =>
        (lookupA kv.1 (buildIndex st mapping (·.sourceColumn) src)).isNone).map misRow := rfl
  have hb2 : ∀ x ∈ ((buildIndex st mapping (·.compareColumn) cmp).filter fun kv =>
      (lookupA kv.1 (buildIndex st mapping (·.sourceColumn) src)).isNone).map misRow,
      x.type = RowType.missingInSource := by
    intro x hx
    rcases List.mem_map.mp hx with ⟨kv, _, rfl⟩
    rfl
  have hb1 : ∀ x ∈ (buildIndex st mapping (·.sourceColumn) src).map
      (pairRow st mapping (buildIndex st mapping (·.compareColumn) cmp)),
      x.type ≠ RowType.missingInSource := by
    intro x hx
    rcases List.mem_map.mp hx with ⟨kv, _, rfl⟩
    exact pairRow_type_ne_mis _ _ _ _
  have hslen : (buildIndex st mapping (·.sourceColumn) src).length =
      (firstOcc (src.rows.map (rowKey st mapping (·.sourceColumn) src.headers))).length := by
    have := keysOf_buildIndex st mapping (·.sourceColumn) src
    calc (buildIndex st mapping (·.sourceColumn) src).length
        = (keysOf (buildIndex st mapping (·.sourceColumn) src)).length :=
          (List.length_map _ _).symm
      _ = _ := by rw [this]
  have hclen : (buildIndex st mapping (·.compareColumn) cmp).length =
      (firstOcc (cmp.rows.map (rowKey st mapping (·.compareColumn) cmp.headers))).length := by
    have := keysOf_buildIndex st mapping (·.compareColumn) cmp
    calc (buildIndex st mapping (·.compareColumn) cmp).length
        = (keysOf (buildIndex st mapping (·.compareColumn) cmp)).length :=
          (List.length_map _ _).symm
      _ = _ := by rw [this]
  constructor
  · rw [hr, countType_append, countType_append, countType_append,
      countType_eq_zero (fun x hx => (hb2 x hx ▸ by simp : x.type ≠ RowType.matched)),
      countType_eq_zero (fun x hx => (hb2 x hx ▸ by simp : x.type ≠ RowType.different)),
      countType_eq_zero (fun x hx => (hb2 x hx ▸ by simp : x.type ≠ RowType.missingInCompare))]
    rw [← hslen]
    have := count_three_pairRow st mapping (buildIndex st mapping (·.compareColumn) cmp)
      (buildIndex st mapping (·.sourceColumn) src)
    omega
  · rw [hr, countType_append, countType_append, countType_append,
      countType_eq_zero (fun x hx => (hb2 x hx ▸ by simp : x.type ≠ RowType.matched)),
      countType_eq_zero (fun x hx => (hb2 x hx ▸ by simp : x.type ≠ RowType.different)),
      countType_eq_zero hb1, countType_eq_length hb2]
    have hmd := count_md_pairRow st mapping (buildIndex st mapping (·.compareColumn) cmp)
      (buildIndex st mapping (·.sourceColumn) src)
    have hcross :
        ((buildIndex st mapping (·.sourceColumn) src).filter fun kv =>
          (lookupA kv.1 (buildIndex st mapping (·.compareColumn) cmp)).isSome).length =
        ((buildIndex st mapping (·.compareColumn) cmp).filter fun kv =>
          (lookupA kv.1 (buildIndex st mapping (·.sourceColumn) src)).isSome).length := by
      rw [length_filter_fst _ (fun k =>
          (lookupA k (buildIndex st mapping (·.compareColumn) cmp)).isSome),
        length_filter_fst _ (fun k =>
          (lookupA k (buildIndex st mapping (·.sourceColumn) src)).isSome)]
      have e1 : ∀ (m : List (String × Record)) (ks : List String),
          (ks.filter fun k => (lookupA k m).isSome).length =
            (ks.filter fun k => decide (k ∈ keysOf m)).length := by
        intro m ks
        congr 1
        apply List.filter_congr
        intro k _
        rcases h : lookupA k m with _ | v
        · have h2 := (lookupA_eq_none_iff k m).mp h
          simp [h, h2]
        · have h2 : k ∈ keysOf m := (lookupA_isSome_iff k m).mp (by rw [h]; rfl)
          simp [h, h2]
      rw [e1, e1]
      exact length_filter_mem_comm
        (nodup_keysOf_buildIndex st mapping (·.sourceColumn) src)
        (nodup_keysOf_buildIndex st mapping (·.compareColumn) cmp)
    have hsum := length_filter_isSome_add_isNone
      (buildIndex st mapping (·.compareColumn) cmp)
      (fun kv => lookupA kv.1 (buildIndex st mapping (·.sourceColumn) src))
    rw [List.length_map, ← hclen]
    omega

/-- **C3.** Output ordering: the match/different/missing-in-compare
rows form a prefix and the missing-in-source rows a suffix (splitting
the output by tag and re-concatenating gives the output back); the
first block is the source-index walk and the second the compare-index
walk, and each index's keys are in first-insertion order — the order of
the first row bearing each key in the corresponding table. -/
theorem c3_reconcile_ordering (st : ComparisonSettings) (mapping : List ColumnMapping)
    (src cmp : CSVData) :
    reconcile st mapping src cmp =
      ((reconcile st mapping src cmp).filter fun x => !decide (x.type = .missingInSource)) ++
      ((reconcile st mapping src cmp).filter fun x => decide (x.type = .missingInSource)) ∧
    ((reconcile st mapping src cmp).filter fun x => !decide (x.type = .missingInSource)) =
      (buildIndex st mapping (·.sourceColumn) src).map
        (pairRow st mapping (buildIndex st mapping (·.compareColumn) cmp)) ∧
    ((reconcile st mapping src cmp).filter fun x => decide (x.type = .missingInSource)) =
      ((buildIndex st mapping (·.compareColumn) cmp).filter fun kv =>
        (lookupA kv.1 (buildIndex st mapping (·.sourceColumn) src)).isNone).map misRow ∧
    keysOf (buildIndex st mapping (·.sourceColumn) src) =
      firstOcc (src.rows.map (rowKey st mapping (·.sourceColumn) src.headers)) ∧
    keysOf (buildIndex st mapping (·.compareColumn) cmp) =
      firstOcc (cmp.rows.map (rowKey st mapping (·.compareColumn) cmp.headers)) := by
  have hr : reconcile st mapping src cmp =
      (buildIndex st mapping (·.sourceColumn) src).map
        (pairRow st mapping (buildIndex st mapping (·.compareColumn) cmp)) ++
      ((buildIndex st mapping (·.compareColumn) cmp).filter fun kv =>
        (lookupA kv.1 (buildIndex st mapping (·.sourceColumn) src)).isNone).map misRow := rfl
  have hb1 : ∀ x ∈ (buildIndex st mapping (·.sourceColumn) src).map
      (pairRow st mapping (buildIndex st mapping (·.compareColumn) cmp)),
      (!decide (x.type = RowType.missingInSource)) = true := by
    intro x hx
    rcases List.mem_map.mp hx with ⟨kv, _, rfl⟩
    simpa using pairRow_type_ne_mis _ _ _ _
  have hb2 : ∀ x ∈ ((buildIndex st mapping (·.compareColumn) cmp).filter fun kv =>
      (lookupA kv.1 (buildIndex st mapping (·.sourceColumn) src)).isNone).map misRow,
      (decide (x.type = RowType.missingInSource)) = true := by
    intro x hx
    rcases List.mem_map.mp hx with ⟨kv, _, rfl⟩
    simp [misRow]
  have hf1 : ((reconcile st mapping src cmp).filter
      fun x => !decide (x.type = .missingInSource)) =
      (buildIndex st mapping (·.sourceColumn) src).map
        (pairRow st mapping (buildIndex st mapping (·.compareColumn) cmp)) := by
    rw [hr, List.filter_append, List.filter_eq_self.mpr hb1,
      List.filter_eq_nil_iff.mpr (fun a ha => by simp [hb2 a ha]), List.append_nil]
  have hf2 : ((reconcile st mapping src cmp).filter
      fun x => decide (x.type = .missingInSource)) =
      ((buildIndex st mapping (·.compareColumn) cmp).filter fun kv =>
        (lookupA kv.1 (buildIndex st mapping (·.sourceColumn) src)).isNone).map misRow := by
    rw [hr, List.filter_append, List.filter_eq_self.mpr hb2,
      List.filter_eq_nil_iff.mpr
        (fun a ha => by have h3 := hb1 a ha; simp at h3; simp [h3]), List.nil_append]
  refine ⟨?_, hf1, hf2, keysOf_buildIndex st mapping _ src, keysOf_buildIndex st mapping _ cmp⟩
  rw [hf1, hf2, hr]

theorem mapSet_of_not_mem {α : Type} {k : String} {m : List (String × α)}
    (h : k ∉ keysOf m) (v : α) : mapSet k v m = m ++ [(k, v)] := by
  induction m with
  | nil => rfl
  | cons hd tl ih =>
      rw [keysOf_cons] at h
      have h1 : hd.1 ≠ k := fun h2 => h (h2 ▸ List.mem_cons_self _ _)
      have h2 : k ∉ keysOf tl := fun h2 => h (List.mem_cons_of_mem _ h2)
      simp [mapSet, h1, ih h2]

/-- Building a JS object from entries with pairwise-distinct keys keeps
the entries as they are. -/
theorem foldl_mapSet_pairs {α : Type} :
    ∀ (pairs acc : List (String × α)),
      (keysOf acc ++ keysOf pairs).Nodup →
      pairs.foldl (fun u x => mapSet x.1 x.2 u) acc = acc ++ pairs := by
  intro pairs
  induction pairs with
  | nil => intro acc _; simp
  | cons hd tl ih =>
      intro acc h
      have hk : hd.1 ∉ keysOf acc := by
        intro hmem
        rcases List.nodup_append.mp h with ⟨_, _, hdisj⟩
        exact hdisj hmem (by simp [keysOf_cons])
      rw [List.foldl_cons, mapSet_of_not_mem hk hd.2, ih (acc ++ [(hd.1, hd.2)])
        (by
          have : keysOf (acc ++ [(hd.1, hd.2)]) ++ keysOf tl =
              keysOf acc ++ hd.1 :: keysOf tl := by
            simp [keysOf]
          rw [this]
          simpa [keysOf_cons] using h)]
      simp

theorem valuesAreEqual_of_norm_empty (st : ComparisonSettings) {a b : String}
    (ha : normalizeValue st a = "") (hb : normalizeValue st b = "") :
    valuesAreEqual st a b = true := by
  have ha2 : normChars st a.data = [] := congrArg String.data ha
  have hb2 : normChars st b.data = [] := congrArg String.data hb
  unfold valuesAreEqual
  rw [ha2, hb2]
  rfl

theorem normalizeValue_empty (st : ComparisonSettings) : normalizeValue st "" = "" := rfl

theorem cellsFor_eq_field (st : ComparisonSettings) (mapping : List ColumnMapping)
    (srow crow : Record) :
    ∀ x ∈ cellsFor st mapping srow crow, x.eq = valuesAreEqual st x.s x.c := by
  intro x hx
  rcases List.mem_map.mp hx with ⟨mp, _, rfl⟩
  rfl

theorem cellsFor_col (st : ComparisonSettings) (mapping : List ColumnMapping)
    (srow crow : Record) :
    (cellsFor st mapping srow crow).map CellCmp.col = mapping.map (·.sourceColumn) := by
  unfold cellsFor
  rw [List.map_map]
  rfl

/-- The difference guard `(sourceValue || compareValue)` is redundant:
a cell pair can only be unequal when at least one raw value is
non-empty, because two empty cells always compare equal. -/
theorem diffs_filter_congr (st : ComparisonSettings) (mapping : List ColumnMapping)
    (srow crow : Record) :
    ((cellsFor st mapping srow crow).filter fun x => !x.eq && !(x.s = "" ∧ x.c = "")) =
      ((cellsFor st mapping srow crow).filter fun x => !x.eq) := by
  apply List.filter_congr
  intro x hx
  have he := cellsFor_eq_field st mapping srow crow x hx
  rcases h : x.eq with _ | _
  · have hne : ¬(x.s = "" ∧ x.c = "") := by
      rintro ⟨hs, hc⟩
      rw [h, hs, hc,
        valuesAreEqual_of_norm_empty st (normalizeValue_empty st) (normalizeValue_empty st)] at he
      simp at he
    simp [hne]
  · simp

/-- The structure of a `match`/`different` row under a duplicate-free
source-column mapping: `unifiedData` lists the mapped columns in
mapping order with `isDifferent` the negated comparator verdict, the
row is `different` iff some cell is unequal, and `differences` (present
exactly on `different` rows) is the `isDifferent` projection of
`unifiedData`. -/
theorem classifyPair_spec (st : ComparisonSettings) (mapping : List ColumnMapping)
    (hnd : (mapping.map (·.sourceColumn)).Nodup) (srow crow : Record) :
    (classifyPair st mapping srow crow).unifiedData =
      some ((cellsFor st mapping srow crow).map fun x =>
        (x.col, UnifiedCell.mk x.s x.c (!x.eq))) ∧
    ((classifyPair st mapping srow crow).type = .different ↔
      ∃ x ∈ cellsFor st mapping srow crow, x.eq = false) ∧
    (classifyPair st mapping srow crow).differences =
      (if (classifyPair st mapping srow crow).type = .different then
        some (((cellsFor st mapping srow crow).filter fun x => !x.eq).map (·.col))
      else none) := by
  have hpairs : (cellsFor st mapping srow crow).foldl
      (fun u x => mapSet x.col (UnifiedCell.mk x.s x.c (!x.eq)) u) [] =
      (cellsFor st mapping srow crow).map fun x =>
        (x.col, UnifiedCell.mk x.s x.c (!x.eq)) := by
    have hk : keysOf ((cellsFor st mapping srow crow).map fun x =>
        (x.col, UnifiedCell.mk x.s x.c (!x.eq))) = mapping.map (·.sourceColumn) := by
      unfold keysOf
      rw [List.map_map, ← cellsFor_col st mapping srow crow]
      rfl
    have h2 := foldl_mapSet_pairs
      ((cellsFor st mapping srow crow).map fun x =>
        (x.col, UnifiedCell.mk x.s x.c (!x.eq))) []
      (by
        rw [show keysOf ([] : List (String × UnifiedCell)) = [] from rfl,
          List.nil_append, hk]
        exact hnd)
    rw [List.foldl_map] at h2
    rw [h2]
    rfl
  have hdg := diffs_filter_congr st mapping srow crow
  unfold classifyPair
  dsimp only
  refine ⟨by rw [hpairs], ?_, ?_⟩
  · rw [hdg]
    by_cases h : ((cellsFor st mapping srow crow).filter fun x => !x.eq).map CellCmp.col = []
    · simp only [h, if_pos rfl]
      constructor
      · intro h2; exact absurd h2 (by simp)
      · rintro ⟨x, hx, hxe⟩
        rw [List.map_eq_nil_iff, List.filter_eq_nil_iff] at h
        exact absurd (by simp [hxe]) (h x hx)
    · simp only [h, if_neg h]
      constructor
      · intro _
        rw [List.map_eq_nil_iff] at h
        rcases List.exists_mem_of_ne_nil _ h with ⟨x, hx⟩
        have := List.mem_filter.mp hx
        exact ⟨x, this.1, by simpa using this.2⟩
      · intro _; rfl
  · rw [hdg]
    by_cases h : ((cellsFor st mapping srow crow).filter fun x => !x.eq).map CellCmp.col = []
    · simp [h]
    · simp [h]

/-- **C10, counterexample.** The claim's "`different` iff some
`unifiedData` entry has `isDifferent`" is *not* unconditional: with
duplicate source columns in the mapping and `"|"`-aliased key parts,
the rows below join to the same key `u|v|w|u|v|w`; the earlier
comparisons of each duplicated column differ (pushing `"a"`, `"b"` into
`differences`) while the later ones are equal and overwrite the
`unifiedData` entries in place — so both code and model emit a
`different` row in which every `unifiedData` entry has
`isDifferent = false`. -/
theorem c10_counterexample :
    reconcile defaultSettings
        [⟨"a", "x1"⟩, ⟨"b", "y1"⟩, ⟨"a", "x2"⟩, ⟨"b", "y2"⟩]
        ⟨["a", "b"], [["u|v", "w"]]⟩
        ⟨["x1", "y1", "x2", "y2"], [["u", "v|w", "u|v", "w"]]⟩ =
      [{ type := RowType.different,
         sourceData := some [("a", "u|v"), ("b", "w")],
         compareData := some [("x1", "u"), ("y1", "v|w"), ("x2", "u|v"), ("y2", "w")],
         differences := some ["a", "b"],
         unifiedData := some [("a", UnifiedCell.mk "u|v" "u|v" false),
                              ("b", UnifiedCell.mk "w" "w" false)] }] ∧
    ¬(RowType.different = RowType.different ↔
        ∃ kv ∈ [("a", UnifiedCell.mk "u|v" "u|v" false),
                ("b", UnifiedCell.mk "w" "w" false)], kv.2.isDifferent = true) := by
  refine ⟨by decide, by decide⟩

/-- **C10, amended.** For every output row of a key present on both
sides (`match`/`different` rows), *provided the mapping's source
columns are pairwise distinct*: the row is `different` iff some
`unifiedData` entry has `isDifferent`, and `differences` — present
exactly on `different` rows — lists exactly the columns whose
`unifiedData` entry has `isDifferent`.  (With duplicate source columns
a later, equal comparison of the same column overwrites the
`unifiedData` entry while its earlier difference stays pushed, breaking
the equivalence.)  The extra non-empty-value guard on pushing a
difference is redundant because two cells that both normalize to empty
always compare equal (final conjunct). -/
theorem c10_differences_unified (st : ComparisonSettings) (mapping : List ColumnMapping)
    (src cmp : CSVData) (hnd : (mapping.map (·.sourceColumn)).Nodup) :
    (∀ row ∈ reconcile st mapping src cmp,
      row.type = RowType.matched ∨ row.type = RowType.different →
      ∀ u, row.unifiedData = some u →
        ((row.type = RowType.different ↔ ∃ kv ∈ u, kv.2.isDifferent = true) ∧
          row.differences =
            (if row.type = RowType.different then
              some ((u.filter fun kv => kv.2.isDifferent).map (·.1))
            else none))) ∧
    (∀ a b : String, normalizeValue st a = "" → normalizeValue st b = "" →
      valuesAreEqual st a b = true) := by
  refine ⟨?_, fun a b ha hb => valuesAreEqual_of_norm_empty st ha hb⟩
  intro row hrow hty u hu
  have hr : reconcile st mapping src cmp =
      (buildIndex st mapping (·.sourceColumn) src).map
        (pairRow st mapping (buildIndex st mapping (·.compareColumn) cmp)) ++
      ((buildIndex st mapping (·.compareColumn) cmp).filter fun kv =>
        (lookupA kv.1 (buildIndex st mapping (·.sourceColumn) src)).isNone).map misRow := rfl
  rw [hr] at hrow
  rcases List.mem_append.mp hrow with hmem | hmem
  · rcases List.mem_map.mp hmem with ⟨kv, _, rfl⟩
    rcases h : lookupA kv.1 (buildIndex st mapping (·.compareColumn) cmp) with _ | crow
    · have hp : pairRow st mapping (buildIndex st mapping (·.compareColumn) cmp) kv =
          { type := .missingInCompare, sourceData := some kv.2 } := by
        unfold pairRow
        rw [h]
      rw [hp] at hty
      rcases hty with h2 | h2 <;> exact absurd h2 (by simp)
    · have hp : pairRow st mapping (buildIndex st mapping (·.compareColumn) cmp) kv =
          classifyPair st mapping kv.2 crow := by
        unfold pairRow
        rw [h]
      rw [hp] at hu hty ⊢
      obtain ⟨hu0, hiff, hdiff⟩ := classifyPair_spec st mapping hnd kv.2 crow
      rw [hu0] at hu
      have hu2 := Option.some_injective _ hu
      subst hu2
      constructor
      · rw [hiff]
        constructor
        · rintro ⟨x, hx, hxe⟩
          exact ⟨(x.col, UnifiedCell.mk x.s x.c (!x.eq)), List.mem_map_of_mem _ hx,
            by simp [hxe]⟩
        · rintro ⟨kv2, hkv2, hkd⟩
          rcases List.mem_map.mp hkv2 with ⟨x, hx, rfl⟩
          exact ⟨x, hx, by simpa using hkd⟩
      · rw [hdiff]
        by_cases h2 : (classifyPair st mapping kv.2 crow).type = RowType.different
        · rw [if_pos h2, if_pos h2]
          congr 1
          rw [List.filter_map]
          rw [List.map_map]
          congr 1
        · rw [if_neg h2, if_neg h2]
  · rcases List.mem_map.mp hmem with ⟨kv, _, rfl⟩
    rcases hty with h2 | h2 <;> exact absurd h2 (by simp [misRow])

/-- Witness for C10: the `different` row produced by the key-aliasing
example (`["a|b", "c"]` vs `["a", "b|c"]` join to the same key), with
all hypotheses discharged on concrete data. -/
theorem c10_witness :
    (RowType.different = RowType.different ↔
      ∃ kv ∈ [("c1", UnifiedCell.mk "a|b" "a" true), ("c2", UnifiedCell.mk "c" "b|c" true)],
        kv.2.isDifferent = true) ∧
    (some ["c1", "c2"] : Option (List String)) =
      (if RowType.different = RowType.different then
        some ((([("c1", UnifiedCell.mk "a|b" "a" true),
            ("c2", UnifiedCell.mk "c" "b|c" true)]).filter
              fun kv => kv.2.isDifferent).map (·.1))
      else none) := by
  have h := (c10_differences_unified defaultSettings [⟨"c1", "c1"⟩, ⟨"c2", "c2"⟩]
      ⟨["c1", "c2"], [["a|b", "c"]]⟩ ⟨["c1", "c2"], [["a", "b|c"]]⟩ (by decide)).1
      { type := .different,
        sourceData := some [("c1", "a|b"), ("c2", "c")],
        compareData := some [("c1", "a"), ("c2", "b|c")],
        differences := some ["c1", "c2"],
        unifiedData := some [("c1", UnifiedCell.mk "a|b" "a" true),
                             ("c2", UnifiedCell.mk "c" "b|c" true)] }
      (by decide) (Or.inr rfl)
      [("c1", UnifiedCell.mk "a|b" "a" true), ("c2", UnifiedCell.mk "c" "b|c" true)] rfl
  exact h

/-! ## When does `parseFloat` fail?  (claim C4) -/

/-- The post-sign part of the input starts a numeric literal: it begins
with a digit, or with `'.'` followed by a digit. -/
def numStartBody (cs2 : List Char) : Bool :=
  match cs2 with
  | [] => false
  | '.' :: r =>
      match r with
      | c :: _ => c.isDigit
      | [] => false
  | c :: _ => c.isDigit

/-- The input (after whitespace skip and optional sign) starts a
numeric literal: it begins with a digit, or with `'.'` followed by a
digit. -/
def hasNumStart (cs : List Char) : Bool :=
  numStartBody ((readSign (cs.dropWhile isJsWs)).2)

/-- The input (after whitespace skip and optional sign) starts with the
literal `Infinity`. -/
def hasInfStart (cs : List Char) : Bool :=
  isInfPrefix ((readSign (cs.dropWhile isJsWs)).2)

theorem match_dot_default {β : Type} {c : Char} (r : List Char)
    (G : List Char → β) (H : β) (hne : c ≠ '.') :
    (match c :: r with
      | '.' :: r2 => G r2
      | _ => H) = H := by
  split
  · rename_i heq
    rw [List.cons.injEq] at heq
    exact absurd heq.1 hne
  · rfl

theorem match_num_head {β : Type} {c : Char} (r : List Char)
    (N : β) (G : List Char → β) (H : Char → List Char → β) (hne : c ≠ '.') :
    (match c :: r with
      | [] => N
      | '.' :: r2 => G r2
      | c2 :: r2 => H c2 r2) = H c r := by
  split
  · rename_i heq
    exact absurd heq (by simp)
  · rename_i heq
    rw [List.cons.injEq] at heq
    exact absurd heq.1 hne
  · rename_i c2 r2 hno heq
    rw [List.cons.injEq] at heq
    rw [heq.1, heq.2]

theorem match_dot_hit {β : Type} (r : List Char) (G : List Char → β) (H : β) :
    (match '.' :: r with
      | '.' :: r2 => G r2
      | _ => H) = G r := rfl

theorem match_num_dot {β : Type} (r : List Char) (N : β) (G : List Char → β)
    (H : Char → List Char → β) :
    (match '.' :: r with
      | [] => N
      | '.' :: r2 => G r2
      | c2 :: r2 => H c2 r2) = G r := rfl

theorem parseCore_eq_none_iff (cs2 : List Char) :
    parseCore cs2 = none ↔ numStartBody cs2 = false := by
  rcases cs2 with _ | ⟨c, r⟩ <;> (unfold parseCore numStartBody; dsimp only)
  · simp [List.takeWhile, List.dropWhile]
  · by_cases hd : c.isDigit
    · have hdot : c ≠ '.' := by
        intro h
        rw [h] at hd
        simp [Char.isDigit] at hd
      rw [List.takeWhile_cons_of_pos hd, List.dropWhile_cons_of_pos hd,
        match_num_head r false (fun r' =>
          match r' with
          | c2 :: _ => c2.isDigit
          | [] => false) (fun c2 _ => c2.isDigit) hdot,
        if_neg (by simp)]
      constructor
      · intro h2
        exfalso
        rcases hrest : r.dropWhile Char.isDigit with _ | ⟨c3, r3⟩
        · rw [hrest] at h2
          simp at h2
        · by_cases h3 : c3 = '.'
          · subst h3
            rw [hrest] at h2
            simp at h2
          · rw [hrest, match_dot_default r3 _ _ h3] at h2
            simp at h2
      · intro h2
        rw [h2] at hd
        exact absurd hd (by simp)
    · have hip : ((c :: r).takeWhile Char.isDigit).length = 0 := by
        rw [List.takeWhile_cons_of_neg (by simpa using hd)]
        rfl
      have hrest : (c :: r).dropWhile Char.isDigit = c :: r :=
        List.dropWhile_cons_of_neg (by simpa using hd)
      rw [hip, hrest, if_pos rfl]
      by_cases hdot : c = '.'
      · subst hdot
        rw [match_dot_hit r _ _, match_num_dot r false _ _]
        rcases r with _ | ⟨c2, r2⟩
        · simp [List.takeWhile]
        · by_cases hd2 : c2.isDigit
          · rw [List.takeWhile_cons_of_pos hd2]
            have hlen : ((c2 :: r2.takeWhile Char.isDigit)).length ≠ 0 := by simp
            rw [if_neg hlen]
            constructor
            · intro h2
              simp at h2
            · intro h2
              dsimp only at h2
              rw [hd2] at h2
              exact absurd h2 (by simp)
          · rw [List.takeWhile_cons_of_neg (by simpa using hd2)]
            rw [show ([] : List Char).length = 0 from rfl, if_pos rfl]
            constructor
            · intro _
              simpa using hd2
            · intro _
              rfl
      · rw [match_dot_default r _ _ hdot,
          match_num_head r false (fun r' =>
            match r' with
            | c2 :: _ => c2.isDigit
            | [] => false) (fun c2 _ => c2.isDigit) hdot]
        constructor
        · intro _
          simpa using hd
        · intro _
          rfl

theorem finOrInf_ne_nan (b : Bool) (d : ScaledDec) :
    finOrInf b d ≠ ParseResult.nan := by
  unfold finOrInf
  split <;> simp

theorem jsParseFloat_eq_nan_iff (cs : List Char) :
    jsParseFloat cs = ParseResult.nan ↔
      (hasNumStart cs = false ∧ hasInfStart cs = false) := by
  unfold jsParseFloat hasNumStart hasInfStart
  dsimp only
  by_cases hinf : isInfPrefix (readSign (cs.dropWhile isJsWs)).2
  · rw [if_pos hinf, hinf]
    simp
  · rw [Bool.not_eq_true] at hinf
    rw [if_neg (by rw [hinf]; exact Bool.false_ne_true), hinf]
    cases hp : parseCore (readSign (cs.dropWhile isJsWs)).2 with
    | none =>
        simp [(parseCore_eq_none_iff _).mp hp]
    | some dr =>
        obtain ⟨d, r⟩ := dr
        dsimp only
        constructor
        · intro h
          exact absurd h (finOrInf_ne_nan _ _)
        · intro h
          rw [(parseCore_eq_none_iff _).mpr h.1] at hp
          exact absurd hp (by simp)

/-- **C4, counterexample.** `"1.2.3"` does *not* fall through to the
non-numeric path: `parseFloat` parses its longest numeric prefix `1.2`,
so `normalizeValue` renders `"1.2"`, not the trimmed original. -/
theorem c4_counterexample :
    normalizeValue defaultSettings "1.2.3" = "1.2" ∧
      normalizeValue defaultSettings "1.2.3" ≠ "1.2.3" := by
  constructor
  · decide
  · decide

/-- **C4, amended.** `normalizeValue` takes the non-numeric path
exactly when `parseFloat` on the cleaned string fails the
`!isNaN && isFinite` guard: when the string has no numeric prefix and
no `Infinity` prefix (after an optional sign, neither a digit, nor a
dot followed by a digit, nor the literal `Infinity`) — the `NaN` case —
or when it names or overflows to an infinity.  `parseFloat` is
longest-prefix parsing, so a string with multiple decimal points is
parsed up to the second dot (`"1.2.3"` → `"1.2"`) and a malformed
exponent is dropped rather than failing (`"1e"` → `"1"`,
`"12e+"` → `"12"`); `"abc"` falls through as `NaN`, while `"1e400"`
(beyond the binary64 overflow threshold `2 ^ 1024 - 2 ^ 970`) and
`"Infinity"` parse to `+∞`, fail the `isFinite` guard, and fall
through unchanged (up to lower-casing). -/
theorem c4_amended_prefix_parse :
    (∀ cs : List Char, jsParseFloat cs = ParseResult.nan ↔
      (hasNumStart cs = false ∧ hasInfStart cs = false)) ∧
    (∀ (st : ComparisonSettings) (s : String) (b : Bool),
      jsTrim s.data ≠ [] →
      jsParseFloat (cleanChars (stripDotZero (trimStep st s.data))) =
        ParseResult.inf b →
      normalizeValue st s =
        ⟨if st.ignoreCase then (stripDotZero (trimStep st s.data)).map lowerChar
          else stripDotZero (trimStep st s.data)⟩) ∧
    normalizeValue defaultSettings "1.2.3" = "1.2" ∧
    normalizeValue defaultSettings "1e" = "1" ∧
    normalizeValue defaultSettings "12e+" = "12" ∧
    normalizeValue defaultSettings "abc" = "abc" ∧
    jsParseFloat ("1e400" : String).data = ParseResult.inf false ∧
    normalizeValue defaultSettings "1e400" = "1e400" ∧
    jsParseFloat ("Infinity" : String).data = ParseResult.inf false ∧
    jsParseFloat ("-Infinity" : String).data = ParseResult.inf true ∧
    normalizeValue defaultSettings "Infinity" = "infinity" := by
  refine ⟨jsParseFloat_eq_nan_iff, ?_, by decide, by decide, by decide, by decide,
    by decide, by decide, by decide, by decide, by decide⟩
  intro st s b htrim h
  unfold normalizeValue normChars
  rw [if_neg htrim]
  dsimp only
  rw [h]

/-- **C5, counterexample.** On the non-numeric path the engine returns
the value *after* the `".0"` strip, not the value of the trimming step:
`normalizeValue "abc.0"` is `"abc"`, not `"abc.0"`. -/
theorem c5_counterexample :
    normalizeValue defaultSettings "abc.0" = "abc" ∧
      normalizeValue defaultSettings "abc.0" ≠ "abc.0" := by
  constructor
  · decide
  · decide

/-- **C5, amended.** For a non-empty input whose cleaned form does not
parse, `normalizeValue` returns the trimmed **and `".0"`-stripped**
value (the mutation of step 3 is visible in the result), without
currency/comma/whitespace removal, lower-cased iff `ignoreCase`;
e.g. `"abc.0"` → `"abc"` while `"$x"` keeps its `$`. -/
theorem c5_amended_nonnumeric_return (st : ComparisonSettings) (s : String)
    (htrim : jsTrim s.data ≠ [])
    (h : (jsParseFloat (cleanChars (stripDotZero (trimStep st s.data)))).finitePart
      = none) :
    normalizeValue st s =
      ⟨if st.ignoreCase then (stripDotZero (trimStep st s.data)).map lowerChar
        else stripDotZero (trimStep st s.data)⟩ := by
  unfold normalizeValue normChars
  rw [if_neg htrim]
  dsimp only
  rcases hp : jsParseFloat (cleanChars (stripDotZero (trimStep st s.data))) with _ | b | d
  · rfl
  · rfl
  · rw [hp] at h
    exact absurd h (by simp [ParseResult.finitePart])

/-- Witness for C5 at `"abc.0"` with the default settings. -/
theorem c5_witness :
    jsTrim ("abc.0" : String).data ≠ [] ∧
    (jsParseFloat (cleanChars (stripDotZero (trimStep defaultSettings
      ("abc.0" : String).data)))).finitePart = none ∧
    normalizeValue defaultSettings "abc.0" =
      ⟨if defaultSettings.ignoreCase then
          (stripDotZero (trimStep defaultSettings ("abc.0" : String).data)).map lowerChar
        else stripDotZero (trimStep defaultSettings ("abc.0" : String).data)⟩ :=
  ⟨by decide, by decide,
    c5_amended_nonnumeric_return defaultSettings "abc.0" (by decide) (by decide)⟩

/-- `jsRoundScaled` is exactly `Math.round` of the scaled value:
`⌊x + 1/2⌋`, the nearest integer with ties toward `+∞`. -/
theorem jsRoundScaled_eq_floor (d : ScaledDec) (p : ℕ) :
    jsRoundScaled d p = ⌊d.val * 10 ^ p + 1 / 2⌋ := by
  have hval : d.val * 10 ^ p + 1 / 2 =
      ((2 * d.m * 10 ^ p + 10 ^ d.e : ℤ) : ℚ) / ((2 * 10 ^ d.e : ℕ) : ℚ) := by
    rw [ScaledDec.val]
    push_cast
    field_simp
    ring
  rw [jsRoundScaled, hval, Rat.floor_intCast_div_natCast]
  push_cast
  rfl

/-- **C6, counterexample.** `Math.round` rounds halves toward `+∞`, not
away from zero: `normalizeValue "-0.005"` at precision 2 is `"0"`, not
`"-0.01"`. -/
theorem c6_counterexample :
    normalizeValue defaultSettings "-0.005" = "0" ∧
      normalizeValue defaultSettings "-0.005" ≠ "-0.01" := by
  constructor
  · decide
  · decide

/-- **C6, amended.** Every string that parses to a (finite) number is
rounded to `precision` decimal places as
`round(x * 10^precision) / 10^precision`, where `round` is the
ECMAScript `Math.round`: the nearest integer with ties toward `+∞`
(`⌊x + 1/2⌋`), *not* half-away-from-zero.  Hence `0.005` at precision 2
rounds up to `"0.01"`, but `-0.005` rounds up to `"0"` (toward zero),
not to `"-0.01"`. -/
theorem c6_amended_rounding :
    (∀ (st : ComparisonSettings) (s : String) (d : ScaledDec),
      jsTrim s.data ≠ [] →
      jsParseFloat (cleanChars (stripDotZero (trimStep st s.data))) =
        ParseResult.finite d →
      normalizeValue st s =
        ⟨renderDecimal (jsRoundScaled d st.numericPrecision) st.numericPrecision⟩) ∧
    (∀ (d : ScaledDec) (p : ℕ), jsRoundScaled d p = ⌊d.val * 10 ^ p + 1 / 2⌋) ∧
    normalizeValue defaultSettings "-0.005" = "0" ∧
    normalizeValue defaultSettings "0.005" = "0.01" := by
  refine ⟨?_, jsRoundScaled_eq_floor, by decide, by decide⟩
  intro st s d htrim h
  unfold normalizeValue normChars
  rw [if_neg htrim]
  dsimp only
  rw [h]

/-- Witness for C6 at `"-0.005"` (which parses to the scaled decimal
`-5 / 10 ^ 3`) with the default settings. -/
theorem c6_witness :
    jsTrim ("-0.005" : String).data ≠ [] ∧
    jsParseFloat (cleanChars (stripDotZero (trimStep defaultSettings
      ("-0.005" : String).data))) = ParseResult.finite ⟨-5, 3⟩ ∧
    normalizeValue defaultSettings "-0.005" =
      ⟨renderDecimal (jsRoundScaled ⟨-5, 3⟩ defaultSettings.numericPrecision)
        defaultSettings.numericPrecision⟩ :=
  ⟨by decide, by decide,
    c6_amended_rounding.1 defaultSettings "-0.005" ⟨-5, 3⟩ (by decide) (by decide)⟩

/-! ## Digit strings round-trip through `parseFloat` (for claim C9) -/

theorem digitVal_digitChar {d : ℕ} (h : d < 10) : digitVal (digitChar d) = d := by
  interval_cases d <;> decide

theorem isDigit_digitChar {d : ℕ} (h : d < 10) : (digitChar d).isDigit = true := by
  interval_cases d <;> decide

theorem digitChar_ne_zero {d : ℕ} (h : d < 10) (h2 : d ≠ 0) : digitChar d ≠ '0' := by
  interval_cases d <;> simp_all <;> decide

theorem digitChar_ne_dot {d : ℕ} (h : d < 10) : digitChar d ≠ '.' := by
  interval_cases d <;> decide

theorem valDigits_concat (l : List Char) (c : Char) :
    valDigits (l ++ [c]) = 10 * valDigits l + digitVal c := by
  simp [valDigits, List.foldl_append]

theorem valDigits_digitsRec : ∀ f v : ℕ, v ≤ f → valDigits (digitsRec f v) = v := by
  intro f
  induction f with
  | zero =>
      intro v hv
      interval_cases v
      rfl
  | succ f ih =>
      intro v hv
      by_cases h0 : v = 0
      · subst h0
        simp [digitsRec, valDigits]
      · rw [digitsRec, if_neg h0, valDigits_concat, ih (v / 10) (by omega),
          digitVal_digitChar (show v % 10 < 10 by omega)]
        omega

theorem valDigits_natDigits (v : ℕ) : valDigits (natDigits v) = v := by
  by_cases h : v = 0
  · subst h
    decide
  · rw [natDigits, if_neg h]
    exact valDigits_digitsRec v v le_rfl

theorem digitsRec_all_digits : ∀ f v : ℕ, ∀ c ∈ digitsRec f v, c.isDigit = true := by
  intro f
  induction f with
  | zero => intro v c hc; simp [digitsRec] at hc
  | succ f ih =>
      intro v c hc
      rw [digitsRec] at hc
      by_cases h0 : v = 0
      · simp [h0] at hc
      · rw [if_neg h0] at hc
        rcases List.mem_append.mp hc with h2 | h2
        · exact ih _ c h2
        · rw [List.mem_singleton] at h2
          subst h2
          exact isDigit_digitChar (by omega)

theorem natDigits_all_digits (v : ℕ) : ∀ c ∈ natDigits v, c.isDigit = true := by
  intro c hc
  by_cases h : v = 0
  · subst h
    rw [natDigits, if_pos rfl, List.mem_singleton] at hc
    subst hc
    decide
  · rw [natDigits, if_neg h] at hc
    exact digitsRec_all_digits v v c hc

theorem natDigits_ne_nil (v : ℕ) : natDigits v ≠ [] := by
  by_cases h : v = 0
  · subst h
    decide
  · rw [natDigits, if_neg h]
    intro h2
    have := valDigits_digitsRec v v le_rfl
    rw [h2] at this
    exact h (by simpa [valDigits] using this.symm)

theorem digitsRec_length_le : ∀ f v k : ℕ, v ≤ f → v < 10 ^ k →
    (digitsRec f v).length ≤ k := by
  intro f
  induction f with
  | zero => intro v k _ _; simp [digitsRec]
  | succ f ih =>
      intro v k hv hk
      by_cases h0 : v = 0
      · simp [digitsRec, h0]
      · rw [digitsRec, if_neg h0]
        rcases k with _ | k'
        · omega
        · rw [List.length_append, List.length_singleton]
          have h2 : v / 10 < 10 ^ k' := by
            rw [Nat.div_lt_iff_lt_mul (by norm_num)]
            calc v < 10 ^ (k' + 1) := hk
              _ = 10 ^ k' * 10 := by ring
          have := ih (v / 10) k' (by omega) h2
          omega

theorem natDigits_length_le {v k : ℕ} (h : v < 10 ^ k) (hk : 1 ≤ k) :
    (natDigits v).length ≤ k := by
  by_cases h0 : v = 0
  · subst h0
    simpa [natDigits] using hk
  · rw [natDigits, if_neg h0]
    exact digitsRec_length_le v v k le_rfl h

theorem valDigits_padZeros (k : ℕ) (ds : List Char) :
    valDigits (padZeros k ds) = valDigits ds := by
  unfold padZeros
  generalize k - ds.length = z
  induction z with
  | zero => rfl
  | succ z ih =>
      rw [List.replicate_succ, List.cons_append]
      show valDigits (List.replicate z '0' ++ ds) = valDigits ds
      exact ih

theorem padZeros_length {k : ℕ} {ds : List Char} (h : ds.length ≤ k) :
    (padZeros k ds).length = k := by
  unfold padZeros
  rw [List.length_append, List.length_replicate]
  omega

theorem padZeros_all_digits {k : ℕ} {ds : List Char}
    (h : ∀ c ∈ ds, c.isDigit = true) : ∀ c ∈ padZeros k ds, c.isDigit = true := by
  intro c hc
  unfold padZeros at hc
  rcases List.mem_append.mp hc with h2 | h2
  · rw [List.eq_of_mem_replicate h2]
    decide
  · exact h c h2

theorem stripTens_spec : ∀ k m : ℕ,
    m = (stripTens m k).1 * 10 ^ (k - (stripTens m k).2) ∧
    (stripTens m k).2 ≤ k ∧
    ((stripTens m k).2 ≠ 0 → (stripTens m k).1 % 10 ≠ 0) := by
  intro k
  induction k with
  | zero => intro m; exact ⟨by simp [stripTens], le_rfl, fun h => absurd rfl h⟩
  | succ k ih =>
      intro m
      by_cases h : m % 10 = 0
      · have hs : stripTens m (k + 1) = stripTens (m / 10) k := by
          rw [stripTens, if_pos h]
        obtain ⟨ih1, ih2, ih3⟩ := ih (m / 10)
        refine ⟨?_, by rw [hs]; omega, by rw [hs]; exact ih3⟩
        rw [hs]
        have hm : m = m / 10 * 10 := by omega
        calc m = m / 10 * 10 := hm
          _ = (stripTens (m / 10) k).1 * 10 ^ (k - (stripTens (m / 10) k).2) * 10 := by
              rw [← ih1]
          _ = (stripTens (m / 10) k).1 * 10 ^ (k + 1 - (stripTens (m / 10) k).2) := by
              rw [mul_assoc, ← pow_succ]
              congr 2
              omega
      · have hs : stripTens m (k + 1) = (m, k + 1) := by
          rw [stripTens, if_neg h]
        rw [hs]
        exact ⟨by simp, le_rfl, fun _ => h⟩

theorem digitsRec_mem_digitChar : ∀ f v : ℕ, ∀ c ∈ digitsRec f v,
    ∃ d : ℕ, d < 10 ∧ c = digitChar d := by
  intro f
  induction f with
  | zero => intro v c hc; simp [digitsRec] at hc
  | succ f ih =>
      intro v c hc
      rw [digitsRec] at hc
      by_cases h0 : v = 0
      · simp [h0] at hc
      · rw [if_neg h0] at hc
        rcases List.mem_append.mp hc with h2 | h2
        · exact ih _ c h2
        · rw [List.mem_singleton] at h2
          exact ⟨v % 10, by omega, h2⟩

theorem natDigits_mem_digitChar (v : ℕ) : ∀ c ∈ natDigits v,
    ∃ d : ℕ, d < 10 ∧ c = digitChar d := by
  intro c hc
  by_cases h : v = 0
  · subst h
    rw [natDigits, if_pos rfl, List.mem_singleton] at hc
    exact ⟨0, by omega, hc⟩
  · rw [natDigits, if_neg h] at hc
    exact digitsRec_mem_digitChar v v c hc

theorem padZeros_mem_digitChar {k : ℕ} {ds : List Char} {c : Char}
    (hds : ∀ c2 ∈ ds, ∃ d : ℕ, d < 10 ∧ c2 = digitChar d)
    (hc : c ∈ padZeros k ds) : ∃ d : ℕ, d < 10 ∧ c = digitChar d := by
  unfold padZeros at hc
  rcases List.mem_append.mp hc with h2 | h2
  · exact ⟨0, by omega, List.eq_of_mem_replicate h2⟩
  · exact hds c h2

/-- Every character of a rendered decimal is a digit, `'-'` or `'.'`. -/
theorem renderDecimal_chars (n : ℤ) (p : ℕ) : ∀ c ∈ renderDecimal n p,
    (∃ d : ℕ, d < 10 ∧ c = digitChar d) ∨ c = '-' ∨ c = '.' := by
  intro c hc
  unfold renderDecimal at hc
  dsimp only at hc
  set m := (stripTens n.natAbs p).1 with hm
  set k := (stripTens n.natAbs p).2 with hk
  by_cases h0 : k = 0
  · rw [if_pos h0] at hc
    rcases List.mem_append.mp hc with h2 | h2
    · split at h2
      · rw [List.mem_singleton] at h2
        exact .inr (.inl h2)
      · simp at h2
    · exact .inl (natDigits_mem_digitChar _ c h2)
  · rw [if_neg h0] at hc
    rcases List.mem_append.mp hc with h2 | h2
    · rcases List.mem_append.mp h2 with h3 | h3
      · split at h3
        · rw [List.mem_singleton] at h3
          exact .inr (.inl h3)
        · simp at h3
      · exact .inl (natDigits_mem_digitChar _ c h3)
    · rcases List.mem_cons.mp h2 with h3 | h3
      · exact .inr (.inr h3)
      · exact .inl (padZeros_mem_digitChar
          (fun c2 h => natDigits_mem_digitChar _ c2 h) h3)


theorem render_char_not_ws {c : Char}
    (h : (∃ d : ℕ, d < 10 ∧ c = digitChar d) ∨ c = '-' ∨ c = '.') :
    isJsWs c = false := by
  rcases h with ⟨d, hd, rfl⟩ | rfl | rfl
  · interval_cases d <;> decide
  · decide
  · decide

theorem render_char_clean_keep {c : Char}
    (h : (∃ d : ℕ, d < 10 ∧ c = digitChar d) ∨ c = '-' ∨ c = '.') :
    (!(isCurrency c || c = ',' || isJsWs c)) = true := by
  rcases h with ⟨d, hd, rfl⟩ | rfl | rfl
  · interval_cases d <;> decide
  · decide
  · decide

theorem jsTrim_of_no_ws {cs : List Char} (h : ∀ c ∈ cs, isJsWs c = false) :
    jsTrim cs = cs := by
  unfold jsTrim
  have hdrop : ∀ l : List Char, (∀ c ∈ l, isJsWs c = false) → l.dropWhile isJsWs = l := by
    intro l hl
    rcases l with _ | ⟨c, r⟩
    · rfl
    · exact List.dropWhile_cons_of_neg (by simp [hl c (List.mem_cons_self c r)])
  rw [hdrop cs h, hdrop cs.reverse (fun c hc => h c (List.mem_reverse.mp hc)),
    List.reverse_reverse]

theorem jsTrim_renderDecimal (n : ℤ) (p : ℕ) :
    jsTrim (renderDecimal n p) = renderDecimal n p :=
  jsTrim_of_no_ws fun c hc => render_char_not_ws (renderDecimal_chars n p c hc)

theorem cleanChars_renderDecimal (n : ℤ) (p : ℕ) :
    cleanChars (renderDecimal n p) = renderDecimal n p := by
  unfold cleanChars
  rw [List.filter_eq_self]
  exact fun c hc => render_char_clean_keep (renderDecimal_chars n p c hc)

theorem renderDecimal_ne_nil (n : ℤ) (p : ℕ) : renderDecimal n p ≠ [] := by
  unfold renderDecimal
  dsimp only
  split
  · intro h
    rcases List.append_eq_nil.mp h with ⟨_, h2⟩
    exact natDigits_ne_nil _ h2
  · intro h
    rcases List.append_eq_nil.mp h with ⟨h2, h3⟩
    rcases List.append_eq_nil.mp h2 with ⟨_, h4⟩
    exact natDigits_ne_nil _ h4

theorem endsDotZero_eq_false_of_not_dot {cs : List Char} (h : '.' ∉ cs) :
    endsDotZero cs = false := by
  unfold endsDotZero
  split
  · rename_i heq
    exfalso
    have h2 : '.' ∈ cs.reverse := by
      rw [heq]
      simp
    exact h (List.mem_reverse.mp h2)
  · rfl

theorem endsDotZero_eq_false_of_getLast {cs : List Char} {c : Char}
    (h : cs.getLast? = some c) (hc : c ≠ '0') : endsDotZero cs = false := by
  unfold endsDotZero
  split
  · rename_i heq
    exfalso
    have h2 : cs.getLast? = some '0' := by
      rw [List.getLast?_eq_head?_reverse, heq]
      rfl
    rw [h] at h2
    exact hc (Option.some_injective _ h2)
  · rfl

theorem natDigits_getLast (v : ℕ) :
    (natDigits v).getLast? = some (digitChar (v % 10)) := by
  by_cases h : v = 0
  · subst h
    decide
  · rw [natDigits, if_neg h]
    obtain ⟨f, rfl⟩ : ∃ f, v = f + 1 := ⟨v - 1, by omega⟩
    rw [digitsRec, if_neg h, List.getLast?_concat]

theorem padZeros_getLast {k : ℕ} {ds : List Char} (h : ds ≠ []) :
    (padZeros k ds).getLast? = ds.getLast? := by
  unfold padZeros
  rw [List.getLast?_append]
  rcases h2 : ds.getLast? with _ | c
  · exact absurd (List.getLast?_eq_none_iff.mp h2) h
  · rfl

theorem endsDotZero_renderDecimal (n : ℤ) (p : ℕ) :
    endsDotZero (renderDecimal n p) = false := by
  obtain ⟨hspec1, hspec2, hspec3⟩ := stripTens_spec p n.natAbs
  unfold renderDecimal
  dsimp only
  by_cases h0 : (stripTens n.natAbs p).2 = 0
  · rw [if_pos h0]
    apply endsDotZero_eq_false_of_not_dot
    intro hdot
    rcases List.mem_append.mp hdot with h2 | h2
    · split at h2
      · rw [List.mem_singleton] at h2
        exact absurd h2.symm (by decide)
      · simp at h2
    · rcases natDigits_mem_digitChar _ _ h2 with ⟨d, hd, hdc⟩
      exact digitChar_ne_dot hd hdc.symm
  · rw [if_neg h0]
    have hlast : ((if n < 0 ∧ (stripTens n.natAbs p).1 ≠ 0 then ['-'] else []) ++
        natDigits ((stripTens n.natAbs p).1 / 10 ^ (stripTens n.natAbs p).2) ++
        '.' :: padZeros (stripTens n.natAbs p).2
          (natDigits ((stripTens n.natAbs p).1 % 10 ^ (stripTens n.natAbs p).2))).getLast? =
        some (digitChar ((stripTens n.natAbs p).1 % 10)) := by
      rw [show ('.' :: padZeros (stripTens n.natAbs p).2
          (natDigits ((stripTens n.natAbs p).1 % 10 ^ (stripTens n.natAbs p).2)) : List Char) =
          ['.'] ++ padZeros (stripTens n.natAbs p).2
            (natDigits ((stripTens n.natAbs p).1 % 10 ^ (stripTens n.natAbs p).2)) from rfl,
        List.getLast?_append, List.getLast?_append, List.getLast?_append,
        padZeros_getLast (natDigits_ne_nil _), natDigits_getLast,
        Nat.mod_mod_of_dvd _ (dvd_pow_self 10 h0)]
      rfl
    exact endsDotZero_eq_false_of_getLast hlast
      (digitChar_ne_zero (by omega) (hspec3 h0))

theorem digitChar_ne_minus {d : ℕ} (h : d < 10) : digitChar d ≠ '-' := by
  interval_cases d <;> decide

theorem digitChar_ne_upperI {d : ℕ} (h : d < 10) : digitChar d ≠ 'I' := by
  interval_cases d <;> decide

theorem isInfPrefix_eq_false {c : Char} (r : List Char) (h : c ≠ 'I') :
    isInfPrefix (c :: r) = false := by
  unfold isInfPrefix
  split
  · rename_i heq
    rw [List.cons.injEq] at heq
    exact absurd heq.1 h
  · rfl

theorem jsParseFloat_split {cs : List Char} {b : Bool} {l : List Char}
    (h : readSign (cs.dropWhile isJsWs) = (b, l)) (hni : isInfPrefix l = false) :
    jsParseFloat cs =
      match parseCore l with
      | none => ParseResult.nan
      | some (d, r) =>
          finOrInf b (if b then ⟨-(applyExpPart d r).m, (applyExpPart d r).e⟩
            else applyExpPart d r) := by
  unfold jsParseFloat
  rw [h]
  dsimp only
  rw [hni, if_neg Bool.false_ne_true]

theorem digitChar_ne_plus {d : ℕ} (h : d < 10) : digitChar d ≠ '+' := by
  interval_cases d <;> decide

theorem readSign_not_sign {c : Char} (r : List Char) (h1 : c ≠ '-') (h2 : c ≠ '+') :
    readSign (c :: r) = (false, c :: r) := by
  unfold readSign
  split
  · rename_i heq
    rw [List.cons.injEq] at heq
    exact absurd heq.1 h1
  · rename_i heq
    rw [List.cons.injEq] at heq
    exact absurd heq.1 h2
  · rfl

theorem takeWhile_all_append {p : Char → Bool} {ds : List Char} (l : List Char)
    (h : ∀ c ∈ ds, p c = true) :
    (ds ++ l).takeWhile p = ds ++ l.takeWhile p ∧
      (ds ++ l).dropWhile p = l.dropWhile p := by
  induction ds with
  | nil => simp
  | cons hd tl ih =>
      have hhd : p hd = true := h hd (List.mem_cons_self _ _)
      have ih2 := ih (fun c hc => h c (List.mem_cons_of_mem _ hc))
      rw [List.cons_append, List.takeWhile_cons_of_pos hhd,
        List.dropWhile_cons_of_pos hhd, ih2.1, ih2.2, List.cons_append]
      exact ⟨rfl, rfl⟩

theorem takeWhile_all {p : Char → Bool} {ds : List Char} (h : ∀ c ∈ ds, p c = true) :
    ds.takeWhile p = ds ∧ ds.dropWhile p = [] := by
  have := @takeWhile_all_append p ds [] h
  simpa using this

/-- `parseFloat` of an optionally signed all-digit string. -/
theorem jsParseFloat_signed_digits (neg : Bool) (ds : List Char) (hne : ds ≠ [])
    (hDC : ∀ c ∈ ds, ∃ d : ℕ, d < 10 ∧ c = digitChar d) :
    jsParseFloat ((if neg then ['-'] else []) ++ ds) =
      finOrInf neg ⟨if neg then -(valDigits ds : ℤ) else (valDigits ds : ℤ), 0⟩ := by
  have hdig : ∀ c ∈ ds, Char.isDigit c = true := by
    intro c hc
    rcases hDC c hc with ⟨d, hd, rfl⟩
    exact isDigit_digitChar hd
  rcases hds : ds with _ | ⟨c, r⟩
  · exact absurd hds hne
  · rw [← hds]
    have hc0 := hDC c (by rw [hds]; exact List.mem_cons_self _ _)
    rcases hc0 with ⟨d0, hd0, hc0⟩
    have hcw : isJsWs c = false := render_char_not_ws (.inl ⟨d0, hd0, hc0⟩)
    have htw := takeWhile_all hdig
    have hlen : ds.takeWhile Char.isDigit ≠ [] := by
      rw [htw.1, hds]
      simp
    have hrest0 : (ds.dropWhile Char.isDigit) = [] := htw.2
    have hni : isInfPrefix ds = false := by
      rw [hds]
      exact isInfPrefix_eq_false r (by rw [hc0]; exact digitChar_ne_upperI hd0)
    cases neg
    · rw [if_neg (by simp), if_neg (by simp), List.nil_append]
      have hsign : readSign (ds.dropWhile isJsWs) = (false, ds) := by
        rw [hds, List.dropWhile_cons_of_neg (by simp [hcw]),
          readSign_not_sign r (hc0 ▸ digitChar_ne_minus hd0)
            (hc0 ▸ digitChar_ne_plus hd0)]
      rw [jsParseFloat_split hsign hni]
      unfold parseCore
      dsimp only
      rw [htw.1, htw.2, if_neg (by rw [hds]; simp)]
      rw [hds]
      rfl
    · rw [if_pos rfl, if_pos rfl, List.singleton_append]
      have hsign : readSign (('-' :: ds).dropWhile isJsWs) = (true, ds) := by
        rw [List.dropWhile_cons_of_neg (by decide)]
        rfl
      rw [jsParseFloat_split hsign hni]
      unfold parseCore
      dsimp only
      rw [htw.1, htw.2, if_neg (by rw [hds]; simp)]
      rw [hds]
      rfl

/-- `parseFloat` of an optionally signed digit string with a fractional
part. -/
theorem jsParseFloat_signed_digits_frac (neg : Bool) (ds fs : List Char) (hne : ds ≠ [])
    (hDC : ∀ c ∈ ds, ∃ d : ℕ, d < 10 ∧ c = digitChar d)
    (hFC : ∀ c ∈ fs, ∃ d : ℕ, d < 10 ∧ c = digitChar d) :
    jsParseFloat ((if neg then ['-'] else []) ++ ds ++ '.' :: fs) =
      finOrInf neg
        ⟨if neg then -((valDigits ds : ℤ) * 10 ^ fs.length + (valDigits fs : ℤ))
          else (valDigits ds : ℤ) * 10 ^ fs.length + (valDigits fs : ℤ), fs.length⟩ := by
  have hdig : ∀ c ∈ ds, Char.isDigit c = true := by
    intro c hc
    rcases hDC c hc with ⟨d, hd, rfl⟩
    exact isDigit_digitChar hd
  have hfdig : ∀ c ∈ fs, Char.isDigit c = true := by
    intro c hc
    rcases hFC c hc with ⟨d, hd, rfl⟩
    exact isDigit_digitChar hd
  have htw := takeWhile_all_append ('.' :: fs) hdig
  have htwf := takeWhile_all hfdig
  have hdotstop : ('.' :: fs : List Char).takeWhile Char.isDigit = [] :=
    List.takeWhile_cons_of_neg (by decide)
  have hdotdrop : ('.' :: fs : List Char).dropWhile Char.isDigit = '.' :: fs :=
    List.dropWhile_cons_of_neg (by decide)
  have htw1 : (ds ++ '.' :: fs).takeWhile Char.isDigit = ds := by
    rw [htw.1, hdotstop, List.append_nil]
  have htw2 : (ds ++ '.' :: fs).dropWhile Char.isDigit = '.' :: fs := by
    rw [htw.2, hdotdrop]
  rcases hds : ds with _ | ⟨c, r⟩
  · exact absurd hds hne
  · rw [← hds]
    have hc0 := hDC c (by rw [hds]; exact List.mem_cons_self _ _)
    rcases hc0 with ⟨d0, hd0, hc0⟩
    have hcw : isJsWs c = false := render_char_not_ws (.inl ⟨d0, hd0, hc0⟩)
    have hni : isInfPrefix (ds ++ '.' :: fs) = false := by
      rw [show ds ++ '.' :: fs = c :: (r ++ '.' :: fs) by rw [hds]; rfl]
      exact isInfPrefix_eq_false _ (by rw [hc0]; exact digitChar_ne_upperI hd0)
    cases neg
    · rw [if_neg Bool.false_ne_true, if_neg Bool.false_ne_true, List.nil_append]
      have hsign : readSign ((ds ++ '.' :: fs).dropWhile isJsWs) =
          (false, ds ++ '.' :: fs) := by
        rw [show ds ++ '.' :: fs = c :: (r ++ '.' :: fs) by rw [hds]; rfl,
          List.dropWhile_cons_of_neg (by simp [hcw]),
          readSign_not_sign _ (hc0 ▸ digitChar_ne_minus hd0)
            (hc0 ▸ digitChar_ne_plus hd0)]
      rw [jsParseFloat_split hsign hni]
      unfold parseCore
      dsimp only
      rw [htw1, htw2, if_neg (by rw [hds]; simp)]
      rw [match_dot_hit fs _ _, htwf.1, htwf.2]
      rfl
    · rw [if_pos rfl, if_pos rfl, List.append_assoc, List.singleton_append]
      have hsign : readSign (('-' :: (ds ++ '.' :: fs)).dropWhile isJsWs) =
          (true, ds ++ '.' :: fs) := by
        rw [List.dropWhile_cons_of_neg (by decide)]
        rfl
      rw [jsParseFloat_split hsign hni]
      unfold parseCore
      dsimp only
      rw [htw1, htw2, if_neg (by rw [hds]; simp)]
      rw [match_dot_hit fs _ _, htwf.1, htwf.2]
      rfl

/-- Parsing a rendered decimal back recovers exactly the value
`n / 10 ^ p`, up to the final overflow classification. -/
theorem jsParseFloat_renderDecimal_aux (n : ℤ) (p : ℕ) :
    ∃ (b : Bool) (d : ScaledDec), jsParseFloat (renderDecimal n p) = finOrInf b d ∧
      d.val = (n : ℚ) / 10 ^ p := by
  obtain ⟨hspec1, hspec2, hspec3⟩ := stripTens_spec p n.natAbs
  unfold renderDecimal
  dsimp only
  set m := (stripTens n.natAbs p).1 with hm
  set k := (stripTens n.natAbs p).2 with hk
  have hnabs : ((n.natAbs : ℚ)) = |(n : ℚ)| := by
    rw [Int.cast_natAbs, Int.cast_abs]
  have habs_q : |(n : ℚ)| = (m : ℚ) * 10 ^ (p - k) := by
    rw [← hnabs]
    exact_mod_cast congrArg (Nat.cast : ℕ → ℚ) hspec1
  have hmq : (m : ℚ) / 10 ^ k = |(n : ℚ)| / 10 ^ p := by
    rw [div_eq_div_iff (by positivity) (by positivity), habs_q,
      show (10 : ℚ) ^ p = 10 ^ (p - k) * 10 ^ k by
        rw [← pow_add]
        congr 1
        omega]
    ring
  by_cases h0 : k = 0
  · rw [if_pos h0]
    refine ⟨decide (n < 0 ∧ m ≠ 0), ⟨if n < 0 ∧ m ≠ 0 then -(valDigits (natDigits m) : ℤ)
        else (valDigits (natDigits m) : ℤ), 0⟩, ?_, ?_⟩
    · by_cases hneg : n < 0 ∧ m ≠ 0
      · rw [if_pos hneg, if_pos hneg, decide_eq_true hneg]
        have := jsParseFloat_signed_digits true (natDigits m) (natDigits_ne_nil m)
          (natDigits_mem_digitChar m)
        simpa using this
      · rw [if_neg hneg, if_neg hneg, decide_eq_false hneg]
        have := jsParseFloat_signed_digits false (natDigits m) (natDigits_ne_nil m)
          (natDigits_mem_digitChar m)
        simpa using this
    · rw [ScaledDec.val]
      dsimp only
      have hzq0 : (((valDigits (natDigits m) : ℤ)) : ℚ) = (m : ℚ) := by
        rw [valDigits_natDigits]
        push_cast
        ring
      have hmq0 : (m : ℚ) = |(n : ℚ)| / 10 ^ p := by
        rw [← hmq, h0]
        norm_num
      by_cases hneg : n < 0 ∧ m ≠ 0
      · rw [if_pos hneg]
        have hlt : (n : ℚ) < 0 := by exact_mod_cast hneg.1
        rw [Int.cast_neg, hzq0, hmq0, abs_of_neg hlt]
        ring
      · rw [if_neg hneg]
        have hge : (0 : ℚ) ≤ (n : ℚ) := by
          rcases not_and_or.mp hneg with h | h
          · have h2 : 0 ≤ n := by omega
            exact_mod_cast h2
          · push_neg at h
            have hab : n.natAbs = 0 := by
              rw [hspec1, h]
              ring
            have h2 : n = 0 := by omega
            rw [h2]
            norm_num
        rw [hzq0, hmq0, abs_of_nonneg hge]
        norm_num
  · rw [if_neg h0]
    have hfrac_lt : m % 10 ^ k < 10 ^ k := Nat.mod_lt _ (by positivity)
    have hflen : (padZeros k (natDigits (m % 10 ^ k))).length = k :=
      padZeros_length (natDigits_length_le hfrac_lt (by omega))
    have hfval : valDigits (padZeros k (natDigits (m % 10 ^ k))) = m % 10 ^ k := by
      rw [valDigits_padZeros, valDigits_natDigits]
    have hm0 : m ≠ 0 := fun h => hspec3 h0 (by rw [h])
    have hdm : m / 10 ^ k * 10 ^ k + m % 10 ^ k = m := by
      rw [mul_comm]
      exact Nat.div_add_mod m (10 ^ k)
    have hz : ((valDigits (natDigits (m / 10 ^ k)) : ℤ) * 10 ^ k +
        (valDigits (padZeros k (natDigits (m % 10 ^ k))) : ℤ)) = (m : ℤ) := by
      rw [hfval, valDigits_natDigits]
      exact_mod_cast congrArg (Nat.cast : ℕ → ℤ) hdm
    have hzq : (((valDigits (natDigits (m / 10 ^ k)) : ℤ) * 10 ^ k +
        (valDigits (padZeros k (natDigits (m % 10 ^ k))) : ℤ) : ℤ) : ℚ) = (m : ℚ) := by
      exact_mod_cast congrArg (Int.cast : ℤ → ℚ) hz
    refine ⟨decide (n < 0 ∧ m ≠ 0), ⟨if n < 0 ∧ m ≠ 0 then
        -((valDigits (natDigits (m / 10 ^ k)) : ℤ) *
          10 ^ (padZeros k (natDigits (m % 10 ^ k))).length +
          (valDigits (padZeros k (natDigits (m % 10 ^ k))) : ℤ))
        else (valDigits (natDigits (m / 10 ^ k)) : ℤ) *
          10 ^ (padZeros k (natDigits (m % 10 ^ k))).length +
          (valDigits (padZeros k (natDigits (m % 10 ^ k))) : ℤ),
        (padZeros k (natDigits (m % 10 ^ k))).length⟩, ?_, ?_⟩
    · by_cases hneg : n < 0 ∧ m ≠ 0
      · rw [if_pos hneg, if_pos hneg, decide_eq_true hneg]
        have := jsParseFloat_signed_digits_frac true (natDigits (m / 10 ^ k))
          (padZeros k (natDigits (m % 10 ^ k))) (natDigits_ne_nil _)
          (natDigits_mem_digitChar _)
          (fun c hc => padZeros_mem_digitChar (natDigits_mem_digitChar _) hc)
        simpa using this
      · rw [if_neg hneg, if_neg hneg, decide_eq_false hneg]
        have := jsParseFloat_signed_digits_frac false (natDigits (m / 10 ^ k))
          (padZeros k (natDigits (m % 10 ^ k))) (natDigits_ne_nil _)
          (natDigits_mem_digitChar _)
          (fun c hc => padZeros_mem_digitChar (natDigits_mem_digitChar _) hc)
        simpa using this
    · rw [ScaledDec.val]
      dsimp only
      rw [hflen]
      by_cases hneg : n < 0 ∧ m ≠ 0
      · rw [if_pos hneg]
        have hlt : (n : ℚ) < 0 := by exact_mod_cast hneg.1
        rw [Int.cast_neg, hzq, neg_div, hmq, abs_of_neg hlt]
        ring
      · rw [if_neg hneg]
        have hge : (0 : ℚ) ≤ (n : ℚ) := by
          rcases not_and_or.mp hneg with h | h
          · have h2 : 0 ≤ n := by omega
            exact_mod_cast h2
          · exact absurd hm0 (by tauto)
        rw [hzq, hmq, abs_of_nonneg hge]

/-- Parsing a rendered decimal back: either the exact value
`n / 10 ^ p` (classified finite), or an overflow to infinity — and in
the latter case the non-numeric path returns the rendered string
unchanged. -/
theorem jsParseFloat_renderDecimal (n : ℤ) (p : ℕ) :
    (∃ d : ScaledDec, jsParseFloat (renderDecimal n p) = ParseResult.finite d ∧
      d.val = (n : ℚ) / 10 ^ p) ∨
    ∃ b : Bool, jsParseFloat (renderDecimal n p) = ParseResult.inf b := by
  obtain ⟨b, d, hp, hv⟩ := jsParseFloat_renderDecimal_aux n p
  unfold finOrInf at hp
  by_cases hov : overflowThreshold * 10 ^ d.e ≤ d.m.natAbs
  · rw [if_pos hov] at hp
    exact Or.inr ⟨b, hp⟩
  · rw [if_neg hov] at hp
    exact Or.inl ⟨d, hp, hv⟩

/-- Lower-casing fixes a rendered decimal: its characters are digits,
`'-'` and `'.'`, none of which is an ASCII upper-case letter. -/
theorem map_lowerChar_renderDecimal (n : ℤ) (p : ℕ) :
    (renderDecimal n p).map lowerChar = renderDecimal n p := by
  have h : ∀ c ∈ renderDecimal n p, lowerChar c = id c := by
    intro c hc
    rcases renderDecimal_chars n p c hc with ⟨d, hd, rfl⟩ | rfl | rfl
    · show lowerChar (digitChar d) = digitChar d
      interval_cases d <;> decide
    · decide
    · decide
  rw [List.map_congr_left h, List.map_id]

/-- A rendered decimal is a fixed point of `normalizeValue`: it
survives trimming, `".0"` stripping and cleaning unchanged, and then
either re-parses to the same value and re-rounds to the same integer,
or overflows and is returned verbatim by the non-numeric path. -/
theorem normChars_renderDecimal (st : ComparisonSettings) (n : ℤ) :
    normChars st (renderDecimal n st.numericPrecision) =
      renderDecimal n st.numericPrecision := by
  have htrim := jsTrim_renderDecimal n st.numericPrecision
  have hne := renderDecimal_ne_nil n st.numericPrecision
  have hstrip : stripDotZero (renderDecimal n st.numericPrecision) =
      renderDecimal n st.numericPrecision := by
    unfold stripDotZero
    rw [endsDotZero_renderDecimal, if_neg Bool.false_ne_true]
  have hts : trimStep st (renderDecimal n st.numericPrecision) =
      renderDecimal n st.numericPrecision := by
    unfold trimStep
    split
    · exact htrim
    · rfl
  unfold normChars
  rw [if_neg (by rw [htrim]; exact hne)]
  dsimp only
  rw [hts, hstrip, cleanChars_renderDecimal]
  rcases jsParseFloat_renderDecimal n st.numericPrecision with
    ⟨d, hparse, hval⟩ | ⟨b, hparse⟩
  · rw [hparse]
    show renderDecimal (jsRoundScaled d st.numericPrecision) st.numericPrecision =
      renderDecimal n st.numericPrecision
    congr 1
    rw [jsRoundScaled_eq_floor, hval,
      div_mul_cancel₀ _ (show ((10 : ℚ) ^ st.numericPrecision) ≠ 0 by positivity),
      Int.floor_int_add]
    norm_num
  · rw [hparse]
    show (if st.ignoreCase then (renderDecimal n st.numericPrecision).map lowerChar
      else renderDecimal n st.numericPrecision) = renderDecimal n st.numericPrecision
    rw [map_lowerChar_renderDecimal]
    split <;> rfl

/-! ## Case folding and the non-numeric path (for claim C9) -/

theorem uint32_le_iff {a b : UInt32} : a ≤ b ↔ a.toNat ≤ b.toNat := by
  rw [UInt32.le_def, BitVec.le_def]
  exact Iff.rfl

theorem isDigit_iff_toNat (c : Char) : c.isDigit = true ↔ 48 ≤ c.toNat ∧ c.toNat ≤ 57 := by
  unfold Char.isDigit
  rw [Bool.and_eq_true, decide_eq_true_eq, decide_eq_true_eq, ge_iff_le,
    uint32_le_iff, uint32_le_iff]
  exact Iff.rfl

theorem toNat_ofNatAux (n : ℕ) (h : n.isValidChar) : (Char.ofNatAux n h).toNat = n := rfl

theorem lowerChar_toNat_of_upper {c : Char} (h : 65 ≤ c.toNat ∧ c.toNat ≤ 90) :
    (lowerChar c).toNat = c.toNat + 32 := by
  unfold lowerChar
  rw [dif_pos h]
  exact toNat_ofNatAux _ _

theorem lowerChar_of_not_upper {c : Char} (h : ¬(65 ≤ c.toNat ∧ c.toNat ≤ 90)) :
    lowerChar c = c := dif_neg h

theorem lowerChar_idem (c : Char) : lowerChar (lowerChar c) = lowerChar c := by
  by_cases h : 65 ≤ c.toNat ∧ c.toNat ≤ 90
  · apply lowerChar_of_not_upper
    rw [lowerChar_toNat_of_upper h]
    omega
  · rw [lowerChar_of_not_upper h, lowerChar_of_not_upper h]

theorem isJsWs_toNat {c : Char} (h : isJsWs c = true) :
    c.toNat = 32 ∨ c.toNat = 9 ∨ c.toNat = 10 ∨ c.toNat = 13 ∨
      c.toNat = 11 ∨ c.toNat = 12 ∨ c.toNat = 160 := by
  unfold isJsWs at h
  simp only [Bool.or_eq_true, decide_eq_true_eq] at h
  rcases h with ((((((rfl | rfl) | rfl) | rfl) | rfl) | rfl) | rfl) <;> decide

theorem isCurrency_toNat {c : Char} (h : isCurrency c = true) :
    c.toNat = 36 ∨ c.toNat = 8364 ∨ c.toNat = 163 ∨ c.toNat = 165 ∨ c.toNat = 8377 := by
  unfold isCurrency at h
  simp only [Bool.or_eq_true, decide_eq_true_eq] at h
  rcases h with ((((rfl | rfl) | rfl) | rfl) | rfl) <;> decide

theorem ws_false_of_range {c : Char} (h : 65 ≤ c.toNat ∧ c.toNat ≤ 122) :
    isJsWs c = false := by
  cases hw : isJsWs c
  · rfl
  · have := isJsWs_toNat hw
    omega

theorem currency_false_of_range {c : Char} (h : 65 ≤ c.toNat ∧ c.toNat ≤ 122) :
    isCurrency c = false := by
  cases hw : isCurrency c
  · rfl
  · have := isCurrency_toNat hw
    omega

theorem ne_comma_of_range {c : Char} (h : 65 ≤ c.toNat ∧ c.toNat ≤ 122) : c ≠ ',' := by
  intro h2
  subst h2
  revert h
  decide

theorem ne_dot_of_range {c : Char} (h : 65 ≤ c.toNat ∧ c.toNat ≤ 122) : c ≠ '.' := by
  intro h2
  subst h2
  revert h
  decide

theorem ne_minus_of_range {c : Char} (h : 65 ≤ c.toNat ∧ c.toNat ≤ 122) : c ≠ '-' := by
  intro h2
  subst h2
  revert h
  decide

theorem ne_plus_of_range {c : Char} (h : 65 ≤ c.toNat ∧ c.toNat ≤ 122) : c ≠ '+' := by
  intro h2
  subst h2
  revert h
  decide

theorem digit_false_of_range {c : Char} (h : 65 ≤ c.toNat ∧ c.toNat ≤ 122) :
    c.isDigit = false := by
  cases hd : c.isDigit
  · rfl
  · have := (isDigit_iff_toNat c).mp hd
    omega

theorem lowerChar_range {c : Char} (h : 65 ≤ c.toNat ∧ c.toNat ≤ 90) :
    65 ≤ (lowerChar c).toNat ∧ (lowerChar c).toNat ≤ 122 := by
  rw [lowerChar_toNat_of_upper h]
  omega

theorem isJsWs_lowerChar (c : Char) : isJsWs (lowerChar c) = isJsWs c := by
  by_cases h : 65 ≤ c.toNat ∧ c.toNat ≤ 90
  · rw [ws_false_of_range (lowerChar_range h), ws_false_of_range (by omega)]
  · rw [lowerChar_of_not_upper h]

theorem isDigit_lowerChar (c : Char) : (lowerChar c).isDigit = c.isDigit := by
  by_cases h : 65 ≤ c.toNat ∧ c.toNat ≤ 90
  · rw [digit_false_of_range (lowerChar_range h), digit_false_of_range (by omega)]
  · rw [lowerChar_of_not_upper h]

theorem keep_lowerChar (c : Char) :
    (!(isCurrency (lowerChar c) || lowerChar c = ',' || isJsWs (lowerChar c))) =
      (!(isCurrency c || c = ',' || isJsWs c)) := by
  by_cases h : 65 ≤ c.toNat ∧ c.toNat ≤ 90
  · rw [currency_false_of_range (lowerChar_range h), currency_false_of_range (by omega),
      ws_false_of_range (lowerChar_range h), ws_false_of_range (by omega)]
    simp [ne_comma_of_range (lowerChar_range h), ne_comma_of_range (show
      65 ≤ c.toNat ∧ c.toNat ≤ 122 by omega)]
  · rw [lowerChar_of_not_upper h]

theorem lowerChar_eq_dot_iff (c : Char) : lowerChar c = '.' ↔ c = '.' := by
  by_cases h : 65 ≤ c.toNat ∧ c.toNat ≤ 90
  · constructor
    · intro h2
      exact absurd h2 (ne_dot_of_range (lowerChar_range h))
    · intro h2
      exact absurd h2 (ne_dot_of_range (by omega))
  · rw [lowerChar_of_not_upper h]

theorem dropWhile_map_comm {p : Char → Bool} {f : Char → Char}
    (hf : ∀ a, p (f a) = p a) :
    ∀ l : List Char, (l.map f).dropWhile p = (l.dropWhile p).map f := by
  intro l
  induction l with
  | nil => rfl
  | cons hd tl ih =>
      rw [List.map_cons]
      cases hp : p hd
      · rw [List.dropWhile_cons_of_neg (by rw [hf, hp]; simp),
          List.dropWhile_cons_of_neg (by rw [hp]; simp), List.map_cons]
      · rw [List.dropWhile_cons_of_pos (by rw [hf, hp]),
          List.dropWhile_cons_of_pos (by rw [hp]), ih]

theorem takeWhile_map_comm {p : Char → Bool} {f : Char → Char}
    (hf : ∀ a, p (f a) = p a) :
    ∀ l : List Char, (l.map f).takeWhile p = (l.takeWhile p).map f := by
  intro l
  induction l with
  | nil => rfl
  | cons hd tl ih =>
      rw [List.map_cons]
      cases hp : p hd
      · rw [List.takeWhile_cons_of_neg (by rw [hf, hp]; simp),
          List.takeWhile_cons_of_neg (by rw [hp]; simp)]
        rfl
      · rw [List.takeWhile_cons_of_pos (by rw [hf, hp]),
          List.takeWhile_cons_of_pos (by rw [hp]), ih, List.map_cons]

theorem cleanChars_map_lower (cs : List Char) :
    cleanChars (cs.map lowerChar) = (cleanChars cs).map lowerChar := by
  unfold cleanChars
  rw [List.filter_map]
  congr 1
  apply List.filter_congr
  intro c _
  exact keep_lowerChar c

theorem readSign_map_lower (cs : List Char) :
    readSign (cs.map lowerChar) = ((readSign cs).1, (readSign cs).2.map lowerChar) := by
  rcases cs with _ | ⟨c, r⟩
  · rfl
  · by_cases hm : c = '-'
    · subst hm
      rfl
    · by_cases hp : c = '+'
      · subst hp
        rfl
      · have hlm : lowerChar c ≠ '-' := by
          by_cases h : 65 ≤ c.toNat ∧ c.toNat ≤ 90
          · exact ne_minus_of_range (lowerChar_range h)
          · rw [lowerChar_of_not_upper h]
            exact hm
        have hlp : lowerChar c ≠ '+' := by
          by_cases h : 65 ≤ c.toNat ∧ c.toNat ≤ 90
          · exact ne_plus_of_range (lowerChar_range h)
          · rw [lowerChar_of_not_upper h]
            exact hp
        rw [List.map_cons, readSign_not_sign _ hlm hlp, readSign_not_sign _ hm hp,
          List.map_cons]

theorem hasNumStart_map_lower (cs : List Char) :
    hasNumStart (cs.map lowerChar) = hasNumStart cs := by
  unfold hasNumStart numStartBody
  rw [dropWhile_map_comm isJsWs_lowerChar, readSign_map_lower]
  dsimp only
  rcases (readSign (cs.dropWhile isJsWs)).2 with _ | ⟨c, r⟩
  · rfl
  · by_cases hdot : c = '.'
    · subst hdot
      rw [List.map_cons, show lowerChar '.' = '.' from rfl,
        match_num_dot _ false _ _, match_num_dot _ false _ _]
      rcases r with _ | ⟨c2, r2⟩
      · rfl
      · rw [List.map_cons]
        exact isDigit_lowerChar c2
    · have hld : lowerChar c ≠ '.' := fun h => hdot ((lowerChar_eq_dot_iff c).mp h)
      rw [List.map_cons,
        match_num_head _ false (fun r' =>
          match r' with
          | c2 :: _ => c2.isDigit
          | [] => false) (fun c2 _ => c2.isDigit) hld,
        match_num_head _ false (fun r' =>
          match r' with
          | c2 :: _ => c2.isDigit
          | [] => false) (fun c2 _ => c2.isDigit) hdot]
      exact isDigit_lowerChar c

theorem char_eq_of_toNat {a b : Char} (h : a.toNat = b.toNat) : a = b :=
  Char.ext (UInt32.ext h)

theorem lowerChar_ne_upper {c t : Char} (ht : 65 ≤ t.toNat ∧ t.toNat ≤ 90) :
    lowerChar c ≠ t := by
  intro h
  by_cases hu : 65 ≤ c.toNat ∧ c.toNat ≤ 90
  · have h2 := lowerChar_toNat_of_upper hu
    rw [h] at h2
    omega
  · rw [lowerChar_of_not_upper hu] at h
    subst h
    exact hu ht

theorem isInfPrefix_map_lower (l : List Char) :
    isInfPrefix (l.map lowerChar) = false := by
  rcases l with _ | ⟨c, r⟩
  · rfl
  · rw [List.map_cons]
    exact isInfPrefix_eq_false _ (lowerChar_ne_upper (by decide))

theorem map_lower_digits {l : List Char} (h : ∀ c ∈ l, c.isDigit = true) :
    l.map lowerChar = l := by
  have h2 : ∀ c ∈ l, lowerChar c = id c := by
    intro c hc
    have h3 := (isDigit_iff_toNat c).mp (h c hc)
    exact lowerChar_of_not_upper (by omega)
  rw [List.map_congr_left h2, List.map_id]

theorem takeWhile_digit_map_lower (l : List Char) :
    (l.map lowerChar).takeWhile Char.isDigit = l.takeWhile Char.isDigit := by
  rw [takeWhile_map_comm isDigit_lowerChar]
  exact map_lower_digits (fun c hc => List.mem_takeWhile_imp hc)

theorem parseCore_cons_none {c : Char} (r : List Char) (hd : c.isDigit = false)
    (hdot : c ≠ '.') : parseCore (c :: r) = none := by
  unfold parseCore
  dsimp only
  rw [List.takeWhile_cons_of_neg (by rw [hd]; simp),
    List.dropWhile_cons_of_neg (by rw [hd]; simp)]
  rw [if_pos (show (List.length ([] : List Char)) = 0 from rfl),
    match_dot_default r _ _ hdot]

theorem isInfPrefix_shape {l : List Char} (h : isInfPrefix l = true) :
    ∃ t, l = 'I' :: 'n' :: 'f' :: 'i' :: 'n' :: 'i' :: 't' :: 'y' :: t := by
  unfold isInfPrefix at h
  split at h
  · rename_i t
    exact ⟨t, rfl⟩
  · exact absurd h Bool.false_ne_true

theorem applyExpPart_map_lower (d : ScaledDec) (r : List Char) :
    applyExpPart d (r.map lowerChar) = applyExpPart d r := by
  rcases r with _ | ⟨c, rest⟩
  · rfl
  · rw [List.map_cons]
    unfold applyExpPart
    dsimp only
    by_cases he : c = 'e' ∨ c = 'E'
    · have hlc : lowerChar c = 'e' := by
        rcases he with rfl | rfl <;> decide
      rw [if_pos (Or.inl hlc), if_pos he, readSign_map_lower]
      rw [takeWhile_digit_map_lower]
    · have h1 : lowerChar c ≠ 'e' := by
        intro h
        by_cases hu : 65 ≤ c.toNat ∧ c.toNat ≤ 90
        · have h2 := lowerChar_toNat_of_upper hu
          rw [h] at h2
          have h3 : c.toNat = 69 := by
            have h4 : ('e' : Char).toNat = 101 := by decide
            omega
          exact he (Or.inr (char_eq_of_toNat h3))
        · rw [lowerChar_of_not_upper hu] at h
          exact he (Or.inl h)
      have h2 : lowerChar c ≠ 'E' := lowerChar_ne_upper (by decide)
      rw [if_neg (by rintro (h | h); exacts [h1 h, h2 h]), if_neg he]

theorem parseCore_map_lower (l : List Char) :
    parseCore (l.map lowerChar) =
      (parseCore l).map (fun q => (q.1, q.2.map lowerChar)) := by
  unfold parseCore
  dsimp only
  rw [takeWhile_digit_map_lower, dropWhile_map_comm isDigit_lowerChar]
  by_cases h0 : (l.takeWhile Char.isDigit).length = 0
  · rw [if_pos h0, if_pos h0]
    rcases hr : l.dropWhile Char.isDigit with _ | ⟨c, r2⟩
    · rfl
    · rw [List.map_cons]
      by_cases hdot : c = '.'
      · subst hdot
        rw [show lowerChar '.' = '.' from rfl, match_dot_hit, match_dot_hit]
        rw [takeWhile_digit_map_lower, dropWhile_map_comm isDigit_lowerChar]
        by_cases hf : (r2.takeWhile Char.isDigit).length = 0
        · rw [if_pos hf, if_pos hf]
          rfl
        · rw [if_neg hf, if_neg hf]
          rfl
      · have hld : lowerChar c ≠ '.' := fun h => hdot ((lowerChar_eq_dot_iff c).mp h)
        rw [match_dot_default _ _ _ hld, match_dot_default _ _ _ hdot]
        rfl
  · rw [if_neg h0, if_neg h0]
    rcases hr : l.dropWhile Char.isDigit with _ | ⟨c, r2⟩
    · rfl
    · rw [List.map_cons]
      by_cases hdot : c = '.'
      · subst hdot
        rw [show lowerChar '.' = '.' from rfl, match_dot_hit, match_dot_hit]
        rw [takeWhile_digit_map_lower, dropWhile_map_comm isDigit_lowerChar]
        rfl
      · have hld : lowerChar c ≠ '.' := fun h => hdot ((lowerChar_eq_dot_iff c).mp h)
        rw [match_dot_default _ _ _ hld, match_dot_default _ _ _ hdot]
        rfl

/-- Lower-casing the input turns an `Infinity` literal into `NaN`
(the literal is case-sensitive) and leaves every other parse outcome
unchanged (digits, dot, sign and whitespace are fixed points, and the
exponent marker `E` lowers to the equally valid `e`). -/
theorem jsParseFloat_map_lower (cs : List Char) :
    jsParseFloat (cs.map lowerChar) =
      if hasInfStart cs = true then ParseResult.nan else jsParseFloat cs := by
  have hsign : readSign ((cs.map lowerChar).dropWhile isJsWs) =
      ((readSign (cs.dropWhile isJsWs)).1,
        ((readSign (cs.dropWhile isJsWs)).2).map lowerChar) := by
    rw [dropWhile_map_comm isJsWs_lowerChar, readSign_map_lower]
  by_cases hinf : hasInfStart cs = true
  · rw [if_pos hinf]
    unfold hasInfStart at hinf
    obtain ⟨t, ht⟩ := isInfPrefix_shape hinf
    rw [jsParseFloat_split hsign (isInfPrefix_map_lower _), ht, List.map_cons,
      show lowerChar 'I' = 'i' from by decide,
      parseCore_cons_none _ (by decide) (by decide)]
  · rw [if_neg hinf]
    unfold hasInfStart at hinf
    rw [Bool.not_eq_true] at hinf
    rw [jsParseFloat_split hsign (isInfPrefix_map_lower _),
      jsParseFloat_split Prod.mk.eta.symm hinf, parseCore_map_lower]
    cases hp : parseCore (readSign (cs.dropWhile isJsWs)).2 with
    | none => rfl
    | some dr =>
        obtain ⟨d, r⟩ := dr
        dsimp only [Option.map]
        rw [applyExpPart_map_lower]

theorem finitePart_map_lower_none {cs : List Char}
    (h : (jsParseFloat cs).finitePart = none) :
    (jsParseFloat (cs.map lowerChar)).finitePart = none := by
  rw [jsParseFloat_map_lower]
  split
  · rfl
  · exact h

theorem finitePart_eq_some_iff {r : ParseResult} {d : ScaledDec} :
    r.finitePart = some d ↔ r = ParseResult.finite d := by
  cases r <;> simp [ParseResult.finitePart]

theorem parse_match_of_not_finite {A : Type} (r : ParseResult)
    (F : ScaledDec → A) (z : A) :
    r.finitePart = none →
    (match r with
      | ParseResult.finite d => F d
      | _ => z) = z := by
  rcases r with _ | b | d
  · intro _
    rfl
  · intro _
    rfl
  · intro hfp
    exact absurd hfp (by simp [ParseResult.finitePart])

theorem map_lowerChar_idem (l : List Char) :
    (l.map lowerChar).map lowerChar = l.map lowerChar := by
  rw [List.map_map]
  apply List.map_congr_left
  intro a _
  exact lowerChar_idem a

/-- **C9, counterexample.** `normalizeValue` is *not* idempotent: the
`".0"` strip peels one layer per application on the non-numeric path,
so `"abc.0.0"` normalizes to `"abc.0"`, which normalizes again to
`"abc"`. -/
theorem c9_counterexample :
    normalizeValue defaultSettings "abc.0.0" = "abc.0" ∧
    normalizeValue defaultSettings (normalizeValue defaultSettings "abc.0.0") = "abc" ∧
    normalizeValue defaultSettings (normalizeValue defaultSettings "abc.0.0") ≠
      normalizeValue defaultSettings "abc.0.0" := by
  refine ⟨by decide, by decide, by decide⟩

/-- **C9, amended.** `normalizeValue` is idempotent on every input
whose normal form is already whitespace-trimmed and does not end in
`".0"` (both conditions hold automatically on the numeric path and on
the empty path; only the non-numeric path can violate them, by exposing
a trailing `".0"` or trailing whitespace when step 3 strips the
original suffix). -/
theorem c9_amended_idempotent (st : ComparisonSettings) (s : String)
    (h1 : jsTrim (normalizeValue st s).data = (normalizeValue st s).data)
    (h2 : endsDotZero (normalizeValue st s).data = false) :
    normalizeValue st (normalizeValue st s) = normalizeValue st s := by
  have hdata : (normalizeValue st s).data = normChars st s.data := rfl
  rw [hdata] at h1 h2
  suffices h : normChars st (normChars st s.data) = normChars st s.data by
    show (⟨normChars st (normChars st s.data)⟩ : String) = ⟨normChars st s.data⟩
    exact congrArg String.mk h
  by_cases ht : jsTrim s.data = []
  · have hy0 : normChars st s.data = [] := by
      unfold normChars
      rw [if_pos ht]
    rw [hy0]
    rfl
  · have hyv : normChars st s.data =
        (match jsParseFloat (cleanChars (stripDotZero (trimStep st s.data))) with
          | ParseResult.finite d =>
              renderDecimal (jsRoundScaled d st.numericPrecision) st.numericPrecision
          | _ => if st.ignoreCase then (stripDotZero (trimStep st s.data)).map lowerChar
              else stripDotZero (trimStep st s.data)) := by
      conv_lhs => rw [normChars]
      rw [if_neg ht]
    cases hpf : (jsParseFloat (cleanChars (stripDotZero (trimStep st s.data)))).finitePart with
    | none =>
      have hyv2 : normChars st s.data =
          (if st.ignoreCase then (stripDotZero (trimStep st s.data)).map lowerChar
            else stripDotZero (trimStep st s.data)) := by
        rw [hyv, parse_match_of_not_finite _ _ _ hpf]
      by_cases hye : normChars st s.data = []
      · rw [hye]
        rfl
      · conv_lhs => rw [normChars]
        rw [if_neg (by rw [h1]; exact hye)]
        dsimp only
        have hts : trimStep st (normChars st s.data) = normChars st s.data := by
          unfold trimStep
          split
          · exact h1
          · rfl
        have hsd : stripDotZero (normChars st s.data) = normChars st s.data := by
          unfold stripDotZero
          rw [h2, if_neg Bool.false_ne_true]
        rw [hts, hsd]
        cases hic : st.ignoreCase
        · rw [hic] at hyv2
          rw [if_neg Bool.false_ne_true] at hyv2
          rw [show cleanChars (normChars st s.data) =
              cleanChars (stripDotZero (trimStep st s.data)) from congrArg cleanChars hyv2,
            parse_match_of_not_finite _ _ _ hpf]
          rw [if_neg Bool.false_ne_true]
        · rw [hic] at hyv2
          rw [if_pos rfl] at hyv2
          rw [show cleanChars (normChars st s.data) =
              (cleanChars (stripDotZero (trimStep st s.data))).map lowerChar by
                rw [hyv2, cleanChars_map_lower],
            parse_match_of_not_finite _ _ _ (finitePart_map_lower_none hpf)]
          rw [if_pos rfl, hyv2, map_lowerChar_idem]
    | some d =>
      rw [finitePart_eq_some_iff.mp hpf] at hyv
      dsimp only at hyv
      rw [hyv]
      exact normChars_renderDecimal st _

/-- Witness for C9 at `" AbC "` (normal form `"abc"`, trimmed and not
ending in `".0"`) with the default settings. -/
theorem c9_witness :
    jsTrim (normalizeValue defaultSettings " AbC ").data =
      (normalizeValue defaultSettings " AbC ").data ∧
    endsDotZero (normalizeValue defaultSettings " AbC ").data = false ∧
    normalizeValue defaultSettings (normalizeValue defaultSettings " AbC ") =
      normalizeValue defaultSettings " AbC " :=
  ⟨by decide, by decide,
    c9_amended_idempotent defaultSettings " AbC " (by decide) (by decide)⟩

/-- The integer comparison implementing the comparator's tolerance test
is exactly `|num1 - num2| < 10 ^ -precision` on the exact values. -/
theorem closerThanTol_iff (d1 d2 : ScaledDec) (p : ℕ) :
    closerThanTol d1 d2 p = true ↔ |d1.val - d2.val| < 1 / 10 ^ p := by
  unfold closerThanTol
  rw [decide_eq_true_eq]
  have hv : d1.val - d2.val =
      ((d1.m * 10 ^ d2.e - d2.m * 10 ^ d1.e : ℤ) : ℚ) / 10 ^ (d1.e + d2.e) := by
    unfold ScaledDec.val
    push_cast
    rw [pow_add]
    field_simp
    ring
  rw [hv, abs_div, abs_of_pos (show (0 : ℚ) < 10 ^ (d1.e + d2.e) by positivity),
    div_lt_div_iff₀ (by positivity) (by positivity), one_mul]
  rw [show |((d1.m * 10 ^ d2.e - d2.m * 10 ^ d1.e : ℤ) : ℚ)| =
      (((d1.m * 10 ^ d2.e - d2.m * 10 ^ d1.e).natAbs : ℚ)) by
    rw [Int.cast_natAbs, Int.cast_abs]]
  constructor
  · intro h
    have h2 : (((d1.m * 10 ^ d2.e - d2.m * 10 ^ d1.e).natAbs * 10 ^ p : ℕ) : ℚ) <
        ((10 ^ (d1.e + d2.e) : ℕ) : ℚ) := by
      exact_mod_cast h
    push_cast at h2
    linarith
  · intro h
    have h2 : (((d1.m * 10 ^ d2.e - d2.m * 10 ^ d1.e).natAbs * 10 ^ p : ℕ) : ℚ) <
        ((10 ^ (d1.e + d2.e) : ℕ) : ℚ) := by
      push_cast
      linarith
    exact_mod_cast h2
